import Mathlib

/-!
Verification of the DMA buffer allocator of src/src/dma_buffer.c (pg-strom).

The development shallowly embeds the buddy-chunk allocator and the segment
directory: machine memory is modelled at chunk-header granularity
(`Segment.hdrs` holds the header that starts at each byte offset of the
segment, `Segment.payload` holds the data bytes of chunks), the per-class
intrusive free lists become `Segment.freeLists`, and the segment directory
becomes `Directory` with its two id lists.  All functions are translated
from the C source; loops are written with an explicit fuel argument that
strictly dominates the bounded iteration counts of the C loops, so that all
definitions evaluate by kernel reduction.
-/

namespace DmaBuf

/-- DMABUF_CHUNKSZ_MAX_BIT from dma_buffer.c: largest size class (16GB). -/
def CHUNKSZ_MAX_BIT : Nat := 34

/-- DMABUF_CHUNKSZ_MIN_BIT from dma_buffer.c: smallest size class (256B). -/
def CHUNKSZ_MIN_BIT : Nat := 8

/-- DMABUF_CHUNKSZ_MIN = 1 << DMABUF_CHUNKSZ_MIN_BIT. -/
def CHUNKSZ_MIN : Nat := 256

/-- DMABUF_CHUNK_MAGIC_CODE. -/
def MAGIC : Nat := 0xDEADBEAF

/-- Header size offsetof(dmaBufferChunk, data) on LP64: two dlist_node of
16 bytes each (free_chain, gcxt_chain), one pointer (shgcon), one size_t
(required), and two cl_uint (mclass, magic_head): 16+16+8+8+4+4 = 56. -/
def HDRSZ : Nat := 56

/-- Postgres MAXALIGN: round up to a multiple of 8 (64-bit build). -/
def MAXALIGN (n : Nat) : Nat := 8 * ((n + 7) / 8)

/-- Postgres INTALIGN: round up to a multiple of 4. -/
def INTALIGN (n : Nat) : Nat := 4 * ((n + 3) / 4)

/-- Iteration worker for `get_next_log2`: first exponent k (counting up from
the given start) with size ≤ 2^k. -/
def gnlAux (size : Nat) : Nat → Nat → Nat
  | k, 0 => k
  | k, fuel+1 => if size ≤ 2 ^ k then k else gnlAux size (k+1) fuel

/-- Modelled from the spec: the helper get_next_log2 lives in pg_strom.h,
which is not under src/.  The spec describes it as computing the "smallest
power-of-two ≥ requested length + fixed per-chunk overhead", i.e. the least
exponent k with size ≤ 2^k. -/
def get_next_log2 (size : Nat) : Nat := gnlAux size 0 65

/-- Iteration worker for `get_prev_log2`: largest exponent k below the given
start with 2^k ≤ size (0 if none). -/
def gplAux (size : Nat) : Nat → Nat
  | 0 => 0
  | k+1 => if 2 ^ (k+1) ≤ size then k+1 else gplAux size k

/-- Modelled from the spec: the helper get_prev_log2 lives in pg_strom.h,
which is not under src/; it is the floor-log2, the largest exponent k with
2^k ≤ size. -/
def get_prev_log2 (size : Nat) : Nat := gplAux size 64

/-- One chunk header (the fields of dmaBufferChunk before data[]).
`freeChain` models whether the intrusive free_chain node is linked
(non-null prev/next), which the code uses as the liveness flag.
`magicTail` models the cl_uint guard word at data + INTALIGN(required). -/
structure Hdr where
  freeChain : Bool
  shgcon : Option Nat
  required : Nat
  mclass : Nat
  magicHead : Nat
  magicTail : Nat
deriving Repr, DecidableEq

/-- One dmaBufferSegment: revision counter, persistent flag, active chunk
count, the chunk headers at each offset, the per-class free lists (offsets,
list head first), and the payload bytes. -/
structure Segment where
  revision : Nat
  persistent : Bool
  numChunks : Int
  hdrs : Nat → Hdr
  freeLists : Nat → List Nat
  payload : Nat → Nat

/-- SHMSEG_EXISTS: odd revision means the backing shared memory exists. -/
def SHMSEG_EXISTS (revision : Nat) : Prop := revision % 2 = 1

instance (r : Nat) : Decidable (SHMSEG_EXISTS r) := by
  unfold SHMSEG_EXISTS; infer_instance

/-- Pointwise update of a header map. -/
def updHdr (h : Nat → Hdr) (o : Nat) (v : Hdr) : Nat → Hdr :=
  fun x => if x = o then v else h x

/-- Pointwise update of the free-list table. -/
def updList (f : Nat → List Nat) (c : Nat) (l : List Nat) : Nat → List Nat :=
  fun x => if x = c then l else f x

/-- memset over a byte range of the payload. -/
def scrub (p : Nat → Nat) (lo len v : Nat) : Nat → Nat :=
  fun x => if lo ≤ x ∧ x < lo + len then v else p x

/-- memcpy of len bytes from src (starting at srcLo) over dst (at dstLo). -/
def copyBytes (dst : Nat → Nat) (dstLo : Nat) (src : Nat → Nat) (srcLo len : Nat) : Nat → Nat :=
  fun x => if dstLo ≤ x ∧ x < dstLo + len then src (srcLo + (x - dstLo)) else dst x

/-- The initialization loop of dmaBufferCreateSegment: starting from offset
headP and class mclass, greedily carve the segment into maximal free chunks
(classes descending to DMABUF_CHUNKSZ_MIN_BIT), pushing each to the head of
its class free list.  The C loop runs at most one placement per class plus
27 class decrements for any segment size ≤ 2^34, so fuel 128 is never
exhausted on real configurations. -/
def seedAux (segSize : Nat) : Nat → Nat → Nat → Segment → Segment
  | 0, _, _, s => s
  | fuel+1, headP, mclass, s =>
    if mclass < CHUNKSZ_MIN_BIT then s
    else if segSize < headP + 2 ^ mclass then
      seedAux segSize fuel headP (mclass - 1) s
    else
      seedAux segSize fuel (headP + 2 ^ mclass) mclass
        { s with
          hdrs := updHdr s.hdrs headP ⟨true, none, 0, mclass, MAGIC, 0⟩,
          freeLists := updList s.freeLists mclass (headP :: s.freeLists mclass) }

/-- dmaBufferCreateSegment: re-initialize all free lists, seed the segment
with maximal chunks, reset num_chunks, and bump the revision to odd.  The
fresh shared memory is zero-filled (ftruncate), hence the zero headers and
payload. -/
def dmaBufferCreateSegment (segSize : Nat) (s : Segment) : Segment :=
  seedAux segSize 128 0 CHUNKSZ_MAX_BIT
    { s with
      hdrs := fun _ => ⟨false, none, 0, 0, 0, 0⟩,
      freeLists := fun _ => [],
      numChunks := 0,
      revision := (s.revision + 1) % 2 ^ 32,
      payload := fun _ => 0 }

/-- dmaBufferDetachSegment: bump the revision to even (backing memory
released); the unmapping itself is a process-local effect outside the
shared state. -/
def dmaBufferDetachSegment (s : Segment) : Segment :=
  { s with revision := (s.revision + 1) % 2 ^ 32 }

/-- dmaBufferSplitChunk: recursively split a free chunk of class mclass into
two buddies of class mclass-1 (pushed to the tail of that free list).
The guard refuses mclass ≥ DMABUF_CHUNKSZ_MAX_BIT, exactly as in the C
source.  A split chunk header is memset to zero and then stamped, so its
required field is 0; we model the (junk) word then sitting at the tail-magic
position as 0.  The empty-list match arm after a successful recursive split
mirrors the C Assert and is unreachable.  Recursion depth is bounded by the
guard, so fuel 35 is never exhausted. -/
def splitAux : Nat → Segment → Nat → Option Segment
  | 0, _, _ => none
  | fuel+1, s, mclass =>
    if CHUNKSZ_MAX_BIT ≤ mclass then none
    else
      match (if (s.freeLists mclass).isEmpty then splitAux fuel s (mclass+1) else some s) with
      | none => none
      | some s1 =>
        match s1.freeLists mclass with
        | [] => none
        | o :: rest =>
          some { s1 with
            hdrs := updHdr (updHdr s1.hdrs o ⟨true, none, 0, mclass - 1, MAGIC, 0⟩)
                      (o + 2 ^ (mclass - 1)) ⟨true, none, 0, mclass - 1, MAGIC, 0⟩,
            freeLists := updList (updList s1.freeLists mclass rest)
                      (mclass - 1) (s1.freeLists (mclass - 1) ++ [o, o + 2 ^ (mclass - 1)]) }

/-- dmaBufferSplitChunk entry point. -/
def dmaBufferSplitChunk (s : Segment) (mclass : Nat) : Option Segment :=
  splitAux 35 s mclass

/-- dmaBufferAllocChunk: take a free chunk of the wanted class (splitting a
larger one if the class list is empty), zero its free_chain (marking it
active), record the required length, stamp head and tail guards, and bump
num_chunks.  Returns the chunk offset.  The shgcon field is set by the
caller (dmaBufferAllocInternal). -/
def dmaBufferAllocChunk (s : Segment) (mclass required : Nat) : Option (Nat × Segment) :=
  match (if (s.freeLists mclass).isEmpty then dmaBufferSplitChunk s (mclass+1) else some s) with
  | none => none
  | some s1 =>
    match s1.freeLists mclass with
    | [] => none
    | o :: rest =>
      some (o, { s1 with
        hdrs := updHdr s1.hdrs o ⟨false, none, required, mclass, MAGIC, MAGIC⟩,
        freeLists := updList s1.freeLists mclass rest,
        numChunks := s1.numChunks + 1 })

/-- The buddy-merge loop of __dmaBufferFree.  The current chunk offset is o
and its class is read from its header, as in the C code (chunk->mclass).
If the buddy (at offset o ± 2^class, depending on bit class of o) is inside
the segment, has the same class and a linked free_chain, it is unlinked from
its free list and the merged chunk's class is incremented; merging into a
lower buddy moves the current chunk pointer to the buddy and leaves the old
header bytes in place.  The class strictly increases each iteration and the
loop exits above DMABUF_CHUNKSZ_MAX_BIT, so fuel 36 is never exhausted. -/
def mergeAux (segSize : Nat) : Nat → Segment → Nat → Segment × Nat
  | 0, s, o => (s, o)
  | fuel+1, s, o =>
    let c := (s.hdrs o).mclass
    if CHUNKSZ_MAX_BIT < c then (s, o)
    else if o.testBit c then
      if o < 2 ^ c then (s, o)
      else
        let b := o - 2 ^ c
        if (s.hdrs b).mclass = c ∧ (s.hdrs b).freeChain = true then
          mergeAux segSize fuel
            { s with
              freeLists := updList s.freeLists c ((s.freeLists c).erase b),
              hdrs := updHdr s.hdrs b { s.hdrs b with mclass := c + 1 } } b
        else (s, o)
    else
      let b := o + 2 ^ c
      if segSize ≤ b then (s, o)
      else if (s.hdrs b).mclass = c ∧ (s.hdrs b).freeChain = true then
        mergeAux segSize fuel
          { s with
            freeLists := updList s.freeLists c ((s.freeLists c).erase b),
            hdrs := updHdr s.hdrs o { s.hdrs o with mclass := c + 1 } } o
      else (s, o)

/-- The segment-level portion of __dmaBufferFree (dma_buffer.c lines
904-990, after pointer validation): scrub the payload with 0xf5, clear the
owner reference, run the buddy-merge loop, push the resulting chunk onto
the head of its class free list, and decrement num_chunks. -/
def freeChunkSeg (segSize : Nat) (s : Segment) (o : Nat) : Segment :=
  let s0 : Segment :=
    { s with
      payload := scrub s.payload (o + HDRSZ) ((s.hdrs o).required) 0xf5,
      hdrs := updHdr s.hdrs o { s.hdrs o with shgcon := none } }
  let r := mergeAux segSize 36 s0 o
  let s1 := r.1
  let o1 := r.2
  let c1 := (s1.hdrs o1).mclass
  { s1 with
    freeLists := updList s1.freeLists c1 (o1 :: s1.freeLists c1),
    hdrs := updHdr s1.hdrs o1 { s1.hdrs o1 with freeChain := true },
    numChunks := s1.numChunks - 1 }

/-- dmaBufferSegmentHead: the directory.  Segments are identified by their
index; segment i owns the virtual range [i*segSize, (i+1)*segSize). -/
structure Directory where
  segSize : Nat
  numSegs : Nat
  active : List Nat
  inactive : List Nat
  segs : Nat → Segment

/-- Pointwise update of the segment table. -/
def updSeg (f : Nat → Segment) (i : Nat) (v : Segment) : Nat → Segment :=
  fun x => if x = i then v else f x

/-- The error conditions raised by the modelled entry points. -/
inductive Err where
  | outOfRange | corrupted | freeChunk | tooLarge | outOfSegment | createFailed | nullChunk
deriving Repr, DecidableEq

/-- pointer_validation: locate the chunk header 56 bytes below the data
pointer, reject pointers outside the reserved DMA range, headers whose
recorded length overflows the chunk or whose guard words are wrong, and
chunks whose free_chain is linked (already free). -/
def pointer_validation (d : Directory) (ptr : Nat) : Except Err (Nat × Nat) :=
  if ptr < HDRSZ then .error .outOfRange
  else
    let chunkOff := ptr - HDRSZ
    if d.numSegs * d.segSize ≤ chunkOff then .error .outOfRange
    else
      let segId := chunkOff / d.segSize
      let o := chunkOff % d.segSize
      let h := (d.segs segId).hdrs o
      if 2 ^ h.mclass < HDRSZ + h.required + 4 ∨ h.magicHead ≠ MAGIC ∨ h.magicTail ≠ MAGIC then
        .error .corrupted
      else if h.freeChain then .error .freeChunk
      else .ok (segId, o)

/-- dmaBufferValidatePtr: true exactly when pointer_validation succeeds. -/
def dmaBufferValidatePtr (d : Directory) (ptr : Nat) : Bool :=
  (pointer_validation d ptr).toBool

/-- dmaBufferSize: the logical (requested) length of a chunk. -/
def dmaBufferSize (d : Directory) (ptr : Nat) : Except Err Nat :=
  match pointer_validation d ptr with
  | .error e => .error e
  | .ok (i, o) => .ok ((d.segs i).hdrs o).required

/-- dmaBufferChunkSize: the physical (power-of-two) length of a chunk. -/
def dmaBufferChunkSize (d : Directory) (ptr : Nat) : Except Err Nat :=
  match pointer_validation d ptr with
  | .error e => .error e
  | .ok (i, o) => .ok (2 ^ ((d.segs i).hdrs o).mclass)

/-- dmaBufferMaxAllocSize. -/
def dmaBufferMaxAllocSize (segSize : Nat) : Nat :=
  2 ^ get_prev_log2 segSize - (MAXALIGN HDRSZ + MAXALIGN 4)

/-- The normalized chunk size of dmaBufferAllocInternal:
MAXALIGN(offsetof(dmaBufferChunk, data) + required + sizeof(cl_uint)),
floored at DMABUF_CHUNKSZ_MIN. -/
def chunkSizeOf (required : Nat) : Nat :=
  max (MAXALIGN (HDRSZ + required + 4)) CHUNKSZ_MIN

/-- The size class dmaBufferAllocInternal assigns to a request. -/
def mclassOf (required : Nat) : Nat := get_next_log2 (chunkSizeOf required)

/-- The loop over the active segment list in dmaBufferAllocInternal:
ask each segment in list order for a chunk, returning the first success. -/
def scanActive (segs : Nat → Segment) (mclass required : Nat) : List Nat → Option (Nat × Nat × Segment)
  | [] => none
  | i :: rest =>
    match dmaBufferAllocChunk (segs i) mclass required with
    | some (o, s1) => some (i, o, s1)
    | none => scanActive segs mclass required rest

/-- The tail of dmaBufferAllocInternal once a chunk is found: store the
owning context in the chunk, scrub the payload with 0xAE, and return the
data pointer (the perf counters and the context's tracking list are outside
this model). -/
def finishAlloc (d : Directory) (ctx : Option Nat) (required i o : Nat) (s1 : Segment) : Nat × Directory :=
  let s2 := { s1 with
    hdrs := updHdr s1.hdrs o { s1.hdrs o with shgcon := ctx },
    payload := scrub s1.payload (o + HDRSZ) required 0xAE }
  (i * d.segSize + o + HDRSZ, { d with segs := updSeg d.segs i s2 })

/-- dmaBufferAllocInternal.  Errors carry the directory state at the point
the error is raised.  createFails injects a recoverable failure of
dmaBufferCreateSegment; the PG_CATCH block then pushes the popped segment
back onto the inactive list before re-throwing.  In this sequential model
the rescan under the exclusive lock returns the same result as the shared
scan, so it is represented by the single scan.  The nullChunk error is the
Assert(chunk != NULL) branch after a fresh segment was created. -/
def dmaBufferAllocInternal (d : Directory) (ctx : Option Nat) (required : Nat)
    (createFails : Bool) : Except (Err × Directory) (Nat × Directory) :=
  let mclass := mclassOf required
  if d.segSize < 2 ^ mclass then .error (.tooLarge, d)
  else
    match scanActive d.segs mclass required d.active with
    | some (i, o, s1) => .ok (finishAlloc d ctx required i o s1)
    | none =>
      match d.inactive with
      | [] => .error (.outOfSegment, d)
      | i :: rest =>
        if createFails then .error (.createFailed, { d with inactive := i :: rest })
        else
          let s1 := dmaBufferCreateSegment d.segSize (d.segs i)
          let d1 := { d with inactive := rest, active := i :: d.active,
                             segs := updSeg d.segs i s1 }
          match dmaBufferAllocChunk s1 mclass required with
          | none => .error (.nullChunk, d1)
          | some (o, s2) => .ok (finishAlloc d1 ctx required i o s2)

/-- __dmaBufferFree: validate the pointer, release the chunk into its
segment, and, when the active count reaches zero on a non-persistent
segment, detach the segment and move it from the active to the inactive
list.  Validation errors leave the directory unchanged. -/
def dmaBufferFreeInternal (d : Directory) (ptr : Nat) : Except Err Directory :=
  match pointer_validation d ptr with
  | .error e => .error e
  | .ok (i, o) =>
    let s1 := freeChunkSeg d.segSize (d.segs i) o
    if 0 < s1.numChunks ∨ s1.persistent then
      .ok { d with segs := updSeg d.segs i s1 }
    else
      .ok { d with segs := updSeg d.segs i (dmaBufferDetachSegment s1),
                   active := d.active.erase i,
                   inactive := i :: d.inactive }

/-- The shrink loop of __dmaBufferRealloc: carve the released tail
[head, tail) of the shrunk chunk into free chunks of descending classes,
pushed onto the head of their free lists.  At most one placement per class;
fuel 128 is never exhausted. -/
def shrinkAux : Nat → Segment → Nat → Nat → Nat → Nat → Segment
  | 0, s, _, _, _, _ => s
  | fuel+1, s, headP, tailP, shift, m =>
    if shift < m then s
    else if tailP < headP + 2 ^ shift then shrinkAux fuel s headP tailP (shift - 1) m
    else
      let t := tailP - 2 ^ shift
      shrinkAux fuel
        { s with
          hdrs := updHdr s.hdrs t ⟨true, none, 0, shift, MAGIC, 0⟩,
          freeLists := updList s.freeLists shift (t :: s.freeLists shift) }
        headP t shift m

/-- __dmaBufferRealloc: same class updates the required length and tail
guard in place; a smaller class shrinks in place and frees the tail
fragments; a larger class allocates a new chunk billed to the same context,
copies the old logical contents, and frees the old chunk. -/
def dmaBufferRealloc (d : Directory) (ptr required : Nat) (createFails : Bool) :
    Except (Err × Directory) (Nat × Directory) :=
  match pointer_validation d ptr with
  | .error e => .error (e, d)
  | .ok (i, o) =>
    let seg := d.segs i
    let ch := seg.hdrs o
    let m := mclassOf required
    if m = ch.mclass then
      let seg1 := { seg with
        hdrs := updHdr seg.hdrs o { ch with required := required, magicTail := MAGIC } }
      .ok (ptr, { d with segs := updSeg d.segs i seg1 })
    else if m < ch.mclass then
      let seg1 := { seg with
        hdrs := updHdr seg.hdrs o { ch with required := required, mclass := m, magicTail := MAGIC } }
      let seg2 := shrinkAux 128 seg1 (o + 2 ^ m) (o + 2 ^ ch.mclass) ch.mclass m
      .ok (ptr, { d with segs := updSeg d.segs i seg2 })
    else
      match dmaBufferAllocInternal d ch.shgcon required createFails with
      | .error e => .error e
      | .ok (ptrN, d1) =>
        let iN := (ptrN - HDRSZ) / d.segSize
        let oN := (ptrN - HDRSZ) % d.segSize
        let sN := d1.segs iN
        let sN1 := { sN with
          payload := copyBytes sN.payload (oN + HDRSZ) (d1.segs i).payload (o + HDRSZ) ch.required }
        let d2 := { d1 with segs := updSeg d1.segs iN sN1 }
        match dmaBufferFreeInternal d2 ptr with
        | .error e => .error (e, d2)
        | .ok d3 => .ok (ptrN, d3)

/-- A blank segment descriptor as left by pgstrom_startup_dma_buffer. -/
def blankSegment : Segment :=
  { revision := 0, persistent := false, numChunks := 0,
    hdrs := fun _ => ⟨false, none, 0, 0, 0, 0⟩,
    freeLists := fun _ => [],
    payload := fun _ => 0 }

/-- The directory state built by pgstrom_startup_dma_buffer: every segment
on the inactive list (in id order), the first min_dma_segment_nums of them
persistent. -/
def initDirectory (segSize numSegs minPersist : Nat) : Directory :=
  { segSize := segSize, numSegs := numSegs,
    active := [],
    inactive := List.range numSegs,
    segs := fun i => { blankSegment with persistent := decide (i < minPersist) } }

/-! ### Arithmetic facts about the helpers -/

theorem gnlAux_le_pow (size : Nat) : ∀ fuel k, size ≤ 2 ^ (k + fuel) →
    size ≤ 2 ^ gnlAux size k fuel := by
  intro fuel
  induction fuel with
  | zero => intro k h; simpa [gnlAux] using h
  | succ n ih =>
    intro k h
    unfold gnlAux
    split
    · assumption
    · refine ih (k+1) ?_
      have he : k + (n + 1) = (k + 1) + n := by omega
      rw [he] at h
      exact h

theorem gnlAux_min (size : Nat) : ∀ fuel k j, k ≤ j → size ≤ 2 ^ j →
    gnlAux size k fuel ≤ j := by
  intro fuel
  induction fuel with
  | zero => intro k j hkj _; simpa [gnlAux] using hkj
  | succ n ih =>
    intro k j hkj hj
    unfold gnlAux
    split
    · exact hkj
    · rcases Nat.lt_or_ge k j with hlt | hge
      · exact ih (k+1) j hlt hj
      · exfalso
        have hkj2 : k = j := Nat.le_antisymm hkj hge
        subst hkj2
        omega

theorem get_next_log2_le_pow (size : Nat) (h : size ≤ 2 ^ 65) :
    size ≤ 2 ^ get_next_log2 size :=
  gnlAux_le_pow size 65 0 h

theorem get_next_log2_min (size j : Nat) (hj : size ≤ 2 ^ j) :
    get_next_log2 size ≤ j :=
  gnlAux_min size 65 0 j (Nat.zero_le j) hj

theorem gplAux_pow_le (size : Nat) (h1 : 1 ≤ size) : ∀ k, 2 ^ gplAux size k ≤ size := by
  intro k
  induction k with
  | zero => simpa [gplAux] using h1
  | succ n ih =>
    unfold gplAux
    split
    · assumption
    · exact ih

theorem gplAux_ge (size : Nat) : ∀ k j, j ≤ k → 2 ^ j ≤ size → j ≤ gplAux size k := by
  intro k
  induction k with
  | zero => intro j hj _; simpa [gplAux] using hj
  | succ n ih =>
    intro j hj hpow
    unfold gplAux
    split
    · exact hj
    · rcases Nat.lt_or_ge j (n+1) with hlt | hge
      · exact ih j (Nat.lt_succ_iff.mp hlt) hpow
      · exfalso
        have : j = n + 1 := Nat.le_antisymm hj hge
        subst this
        omega

theorem get_prev_log2_pow_le (size : Nat) (h1 : 1 ≤ size) :
    2 ^ get_prev_log2 size ≤ size :=
  gplAux_pow_le size h1 64

theorem get_prev_log2_ge (size j : Nat) (hj : j ≤ 64) (h : 2 ^ j ≤ size) :
    j ≤ get_prev_log2 size :=
  gplAux_ge size 64 j hj h

theorem get_prev_log2_lt (size c : Nat) (hc : c ≤ 64) (hgt : get_prev_log2 size < c) :
    size < 2 ^ c := by
  by_contra hle
  push_neg at hle
  exact absurd (get_prev_log2_ge size c hc hle) (Nat.not_le_of_lt hgt)

theorem MAXALIGN_ge (n : Nat) : n ≤ MAXALIGN n := by
  unfold MAXALIGN; omega

theorem MAXALIGN_le (n m : Nat) (h8 : m % 8 = 0) (h : n ≤ m) : MAXALIGN n ≤ m := by
  unfold MAXALIGN; omega

theorem chunkSizeOf_ge (required : Nat) : HDRSZ + required + 4 ≤ chunkSizeOf required :=
  le_trans (MAXALIGN_ge _) (le_max_left _ _)

theorem chunkSizeOf_min (required : Nat) : CHUNKSZ_MIN ≤ chunkSizeOf required :=
  le_max_right _ _

theorem pow_mclassOf_ge (required : Nat) (h : required ≤ 2 ^ 34) :
    chunkSizeOf required ≤ 2 ^ mclassOf required := by
  apply get_next_log2_le_pow
  have h1 : HDRSZ + required + 4 ≤ 2 ^ 36 := by
    unfold HDRSZ
    have : (2:Nat) ^ 34 ≤ 2 ^ 36 := Nat.pow_le_pow_right (by norm_num) (by norm_num)
    omega
  have h2 : MAXALIGN (HDRSZ + required + 4) ≤ 2 ^ 36 :=
    MAXALIGN_le _ _ (by norm_num) h1
  have h3 : chunkSizeOf required ≤ 2 ^ 36 := by
    unfold chunkSizeOf CHUNKSZ_MIN
    refine max_le h2 (by norm_num)
  exact le_trans h3 (Nat.pow_le_pow_right (by norm_num) (by norm_num))

theorem mclassOf_le (required j : Nat) (hj : chunkSizeOf required ≤ 2 ^ j) :
    mclassOf required ≤ j :=
  get_next_log2_min _ j hj

/-! ### Claim C10: resize within the same size class -/

/-- Claim C10: a resize whose new required size maps to the same size class
returns the same pointer, updates only the chunk's recorded required length
and the tail guard marker, and leaves the payload bytes, the chunk's size
class, the owning context, the segment's free lists, and the segment's
active-chunk count all unchanged. -/
theorem claim10_realloc_same_class
    (d : Directory) (ptr required i o : Nat) (cf : Bool)
    (hv : pointer_validation d ptr = .ok (i, o))
    (hm : mclassOf required = ((d.segs i).hdrs o).mclass) :
    ∃ d1,
      dmaBufferRealloc d ptr required cf = .ok (ptr, d1) ∧
      d1.active = d.active ∧
      d1.inactive = d.inactive ∧
      (∀ j, j ≠ i → d1.segs j = d.segs j) ∧
      (d1.segs i).freeLists = (d.segs i).freeLists ∧
      (d1.segs i).numChunks = (d.segs i).numChunks ∧
      (d1.segs i).payload = (d.segs i).payload ∧
      (∀ o2, o2 ≠ o → (d1.segs i).hdrs o2 = (d.segs i).hdrs o2) ∧
      (d1.segs i).hdrs o =
        { (d.segs i).hdrs o with required := required, magicTail := MAGIC } ∧
      ((d1.segs i).hdrs o).mclass = ((d.segs i).hdrs o).mclass ∧
      ((d1.segs i).hdrs o).shgcon = ((d.segs i).hdrs o).shgcon := by
  refine ⟨{ d with segs := updSeg d.segs i { d.segs i with hdrs := updHdr (d.segs i).hdrs o { (d.segs i).hdrs o with required := required, magicTail := MAGIC } } }, ?_, ?_, ?_, ?_, ?_, ?_, ?_, ?_, ?_, ?_, ?_⟩
  · simp [dmaBufferRealloc, hv, hm]
  · rfl
  · rfl
  · intro j hj; simp [updSeg, if_neg hj]
  · simp [updSeg, updHdr]
  · simp [updSeg]
  · simp [updSeg]
  · intro o2 h2; simp [updSeg, updHdr, if_neg h2]
  · simp [updSeg, updHdr]
  · simp [updSeg, updHdr]
  · simp [updSeg, updHdr]

/-! ### Concrete example states used by the witnesses -/

/-- A one-segment directory with 4KB segments, the segment persistent. -/
def exDir0 : Directory := initDirectory 4096 1 1

/-- First allocation (context 7, 10 bytes) from the fresh directory. -/
def exA1 : Except (Err × Directory) (Nat × Directory) :=
  dmaBufferAllocInternal exDir0 (some 7) 10 false

def exD1 : Directory := match exA1 with | .ok (_, d) => d | .error (_, d) => d

def exP1 : Nat := match exA1 with | .ok (p, _) => p | .error _ => 0

/-- Second allocation (context 7, 20 bytes): the buddy of the first chunk. -/
def exA2 : Except (Err × Directory) (Nat × Directory) :=
  dmaBufferAllocInternal exD1 (some 7) 20 false

def exD2 : Directory := match exA2 with | .ok (_, d) => d | .error (_, d) => d

def exP2 : Nat := match exA2 with | .ok (p, _) => p | .error _ => 0

/-- Witness for claim C10 at a concrete reachable state: the chunk at
offset 0 (pointer 56) of the example directory, resized from 10 to 15
bytes within class 8. -/
theorem claim10_witness :
    pointer_validation exD2 56 = Except.ok (0, 0) ∧
    mclassOf 15 = ((exD2.segs 0).hdrs 0).mclass ∧
    ∃ d1, dmaBufferRealloc exD2 56 15 false = Except.ok (56, d1) := by
  have hv : pointer_validation exD2 56 = Except.ok (0, 0) := by rfl
  have hm : mclassOf 15 = ((exD2.segs 0).hdrs 0).mclass := by rfl
  obtain ⟨d1, h1, -, -, -, -, -, -, -, -, -, -⟩ :=
    claim10_realloc_same_class exD2 56 15 0 0 false hv hm
  exact ⟨hv, hm, d1, h1⟩

/-! ### Frame lemmas for the merge loop and the free path -/

theorem updSeg_same (f : Nat → Segment) (i : Nat) (v : Segment) : updSeg f i v i = v := by
  simp [updSeg]

theorem updSeg_other (f : Nat → Segment) (i : Nat) (v : Segment) (j : Nat) (h : j ≠ i) :
    updSeg f i v j = f j := by
  simp [updSeg, h]

theorem updHdr_same (f : Nat → Hdr) (o : Nat) (v : Hdr) : updHdr f o v o = v := by
  simp [updHdr]

theorem updHdr_other (f : Nat → Hdr) (o : Nat) (v : Hdr) (x : Nat) (h : x ≠ o) :
    updHdr f o v x = f x := by
  simp [updHdr, h]

theorem updList_same (f : Nat → List Nat) (c : Nat) (l : List Nat) : updList f c l c = l := by
  simp [updList]

theorem updList_other (f : Nat → List Nat) (c : Nat) (l : List Nat) (x : Nat) (h : x ≠ c) :
    updList f c l x = f x := by
  simp [updList, h]

theorem mergeAux_frame (segSize : Nat) : ∀ fuel s o,
    (mergeAux segSize fuel s o).1.numChunks = s.numChunks ∧
    (mergeAux segSize fuel s o).1.revision = s.revision ∧
    (mergeAux segSize fuel s o).1.persistent = s.persistent ∧
    (mergeAux segSize fuel s o).1.payload = s.payload := by
  intro fuel
  induction fuel with
  | zero => intro s o; exact ⟨rfl, rfl, rfl, rfl⟩
  | succ n ih =>
    intro s o
    unfold mergeAux
    dsimp only
    split
    · exact ⟨rfl, rfl, rfl, rfl⟩
    · split
      · split
        · exact ⟨rfl, rfl, rfl, rfl⟩
        · split
          · exact ih _ _
          · exact ⟨rfl, rfl, rfl, rfl⟩
      · split
        · exact ⟨rfl, rfl, rfl, rfl⟩
        · split
          · exact ih _ _
          · exact ⟨rfl, rfl, rfl, rfl⟩

theorem freeChunkSeg_numChunks (segSize : Nat) (s : Segment) (o : Nat) :
    (freeChunkSeg segSize s o).numChunks = s.numChunks - 1 := by
  unfold freeChunkSeg
  dsimp only
  rw [(mergeAux_frame segSize 36 _ o).1]

theorem freeChunkSeg_revision (segSize : Nat) (s : Segment) (o : Nat) :
    (freeChunkSeg segSize s o).revision = s.revision := by
  unfold freeChunkSeg
  dsimp only
  rw [(mergeAux_frame segSize 36 _ o).2.1]

theorem freeChunkSeg_persistent (segSize : Nat) (s : Segment) (o : Nat) :
    (freeChunkSeg segSize s o).persistent = s.persistent := by
  unfold freeChunkSeg
  dsimp only
  rw [(mergeAux_frame segSize 36 _ o).2.2.1]

/-! ### Claim C4: release of an empty segment / backing-memory invariant -/

theorem parity_bump (r : Nat) (hodd : r % 2 = 1) : ((r + 1) % 2 ^ 32) % 2 = 0 := by
  have h2 : (2:Nat) ∣ 2 ^ 32 := dvd_pow_self 2 (by norm_num)
  rw [Nat.mod_mod_of_dvd _ h2]
  omega

/-- Claim C4: when a free brings a segment's active-chunk count to zero,
a non-persistent segment is detached (revision bumped to even, i.e. backing
memory gone) and moved from the active to the inactive list, while a
persistent segment keeps its backing memory and stays on the active list;
and while the count is still positive the backing memory (odd revision)
is untouched. -/
theorem claim4_segment_release (d : Directory) (ptr i o : Nat)
    (hv : pointer_validation d ptr = .ok (i, o))
    (hodd : SHMSEG_EXISTS (d.segs i).revision) :
    ∃ d1, dmaBufferFreeInternal d ptr = .ok d1 ∧
      (d1.segs i).numChunks = (d.segs i).numChunks - 1 ∧
      ((d.segs i).persistent = true →
        d1.active = d.active ∧ d1.inactive = d.inactive ∧
        (d1.segs i).revision = (d.segs i).revision ∧
        SHMSEG_EXISTS (d1.segs i).revision) ∧
      ((d.segs i).persistent = false → (d.segs i).numChunks - 1 ≤ 0 →
        d1.active = d.active.erase i ∧ d1.inactive = i :: d.inactive ∧
        ¬ SHMSEG_EXISTS (d1.segs i).revision) ∧
      (0 < (d.segs i).numChunks - 1 →
        d1.active = d.active ∧ d1.inactive = d.inactive ∧
        (d1.segs i).revision = (d.segs i).revision ∧
        SHMSEG_EXISTS (d1.segs i).revision) := by
  unfold dmaBufferFreeInternal
  rw [hv]
  dsimp only
  have hn := freeChunkSeg_numChunks d.segSize (d.segs i) o
  have hr := freeChunkSeg_revision d.segSize (d.segs i) o
  have hp := freeChunkSeg_persistent d.segSize (d.segs i) o
  split
  · rename_i hcond
    refine ⟨_, rfl, ?_, ?_, ?_, ?_⟩
    · simp [updSeg, hn]
    · intro hpers
      refine ⟨rfl, rfl, ?_, ?_⟩ <;> simp [updSeg, hr, hodd]
    · intro hpers hle
      exfalso
      rcases hcond with h | h
      · omega
      · rw [hp, hpers] at h; exact Bool.false_ne_true h
    · intro hpos
      refine ⟨rfl, rfl, ?_, ?_⟩ <;> simp [updSeg, hr, hodd]
  · rename_i hcond
    push_neg at hcond
    obtain ⟨hle, hnp⟩ := hcond
    refine ⟨_, rfl, ?_, ?_, ?_, ?_⟩
    · simp [updSeg, dmaBufferDetachSegment, hn]
    · intro hpers
      exfalso
      rw [hp, hpers] at hnp
      exact hnp rfl
    · intro _ _
      refine ⟨rfl, rfl, ?_⟩
      dsimp only
      rw [updSeg_same]
      unfold dmaBufferDetachSegment SHMSEG_EXISTS
      dsimp only
      rw [hr]
      intro hcontra
      have hb := parity_bump _ hodd
      omega
    · intro hpos
      exfalso
      rw [hn] at hle
      omega

/-! ### Claim C7: rollback of the inactive list on error exits -/

/-- The directory invariant: a segment id is on exactly one of the two
lists. -/
def OnExactlyOne (d : Directory) (i : Nat) : Prop :=
  (i ∈ d.active ∧ i ∉ d.inactive) ∨ (i ∉ d.active ∧ i ∈ d.inactive)

instance (d : Directory) (i : Nat) : Decidable (OnExactlyOne d i) := by
  unfold OnExactlyOne
  infer_instance

/-- Claim C7: when dmaBufferCreateSegment fails after the segment was
popped from the inactive list, the segment is pushed back onto the
inactive list before the error propagates, so the directory is returned
to its prior state; and more generally every error exit of
dmaBufferAllocInternal preserves the exactly-one-list invariant. -/
theorem claim7_error_rollback (d : Directory) (ctx : Option Nat) (required : Nat) (cf : Bool)
    (hinv : ∀ j, j < d.numSegs → OnExactlyOne d j) (hnd : d.inactive.Nodup) :
    (∀ i rest, d.inactive = i :: rest →
        scanActive d.segs (mclassOf required) required d.active = none →
        2 ^ mclassOf required ≤ d.segSize →
        dmaBufferAllocInternal d ctx required true = .error (.createFailed, d)) ∧
    (∀ e d1, dmaBufferAllocInternal d ctx required cf = .error (e, d1) →
        ∀ j, j < d.numSegs → OnExactlyOne d1 j) := by
  constructor
  · intro i rest hin hscan hsz
    unfold dmaBufferAllocInternal
    dsimp only
    rw [if_neg (by omega : ¬ d.segSize < 2 ^ mclassOf required), hscan, hin]
    dsimp only
    rw [if_pos rfl, ← hin]
  · intro e d1 h j hj
    unfold dmaBufferAllocInternal at h
    dsimp only at h
    split at h
    · injection h with hpair
      injection hpair with he hd
      rw [← hd]
      exact hinv j hj
    · split at h
      · exact absurd h (by simp)
      · split at h
        · injection h with hpair
          injection hpair with he hd
          rw [← hd]
          exact hinv j hj
        · rename_i i rest hin
          split at h
          · injection h with hpair
            injection hpair with he hd
            rw [← hd, ← hin]
            exact hinv j hj
          · split at h
            · injection h with hpair
              injection hpair with he hd
              rw [← hd]
              have hj2 := hinv j hj
              unfold OnExactlyOne at hj2 ⊢
              dsimp only
              by_cases hji : j = i
              · subst hji
                have hjin : j ∈ d.inactive := by rw [hin]; exact List.mem_cons_self _ _
                rcases hj2 with ⟨ha, hna⟩ | ⟨hna, _⟩
                · exact absurd hjin hna
                · left
                  constructor
                  · exact List.mem_cons_self _ _
                  · rw [hin] at hnd
                    intro hjrest
                    exact (List.nodup_cons.mp hnd).1 hjrest
              · rcases hj2 with ⟨ha, hni⟩ | ⟨hna, hi⟩
                · left
                  refine ⟨List.mem_cons_of_mem _ ha, ?_⟩
                  intro hjrest
                  exact hni (by rw [hin]; exact List.mem_cons_of_mem _ hjrest)
                · right
                  refine ⟨?_, ?_⟩
                  · intro hjc
                    rcases List.mem_cons.mp hjc with hji2 | hja
                    · exact hji hji2
                    · exact hna hja
                  · rw [hin] at hi
                    rcases List.mem_cons.mp hi with hji2 | hjr
                    · exact absurd hji2 hji
                    · exact hjr
            · exact absurd h (by simp)

/-- Witness for claim C4 at a concrete reachable state: freeing the chunk
at pointer 56 of the two-chunk example directory. -/
theorem claim4_witness :
    pointer_validation exD2 56 = Except.ok (0, 0) ∧
    SHMSEG_EXISTS (exD2.segs 0).revision ∧
    ∃ d1, dmaBufferFreeInternal exD2 56 = Except.ok d1 := by
  have hv : pointer_validation exD2 56 = Except.ok (0, 0) := by rfl
  have hodd : SHMSEG_EXISTS (exD2.segs 0).revision := by decide
  obtain ⟨d1, h1, -⟩ := claim4_segment_release exD2 56 0 0 hv hodd
  exact ⟨hv, hodd, d1, h1⟩

/-- Witness for claim C7 at a concrete state: the empty-active,
one-inactive-segment directory, with an injected creation failure. -/
theorem claim7_witness :
    (∀ j, j < exDir0.numSegs → OnExactlyOne exDir0 j) ∧
    exDir0.inactive.Nodup ∧
    exDir0.inactive = 0 :: [] ∧
    scanActive exDir0.segs (mclassOf 10) 10 exDir0.active = none ∧
    2 ^ mclassOf 10 ≤ exDir0.segSize ∧
    dmaBufferAllocInternal exDir0 (some 7) 10 true = .error (.createFailed, exDir0) := by
  have hinv : ∀ j, j < exDir0.numSegs → OnExactlyOne exDir0 j := by decide
  have hnd : exDir0.inactive.Nodup := by decide
  have hin : exDir0.inactive = 0 :: [] := by rfl
  have hscan : scanActive exDir0.segs (mclassOf 10) 10 exDir0.active = none := by rfl
  have hsz : 2 ^ mclassOf 10 ≤ exDir0.segSize := by decide
  have hmain := (claim7_error_rollback exDir0 (some 7) 10 true hinv hnd).1 0 [] hin hscan hsz
  exact ⟨hinv, hnd, hin, hscan, hsz, hmain⟩

/-! ### Free-list bounds and the seeding of a fresh segment -/

/-- Every chunk on a free list of class at most 34 lies inside the
segment. -/
def ListsBounded (S : Nat) (s : Segment) : Prop :=
  ∀ c, c ≤ CHUNKSZ_MAX_BIT → ∀ o ∈ s.freeLists c, o + 2 ^ c ≤ S

instance (S : Nat) (s : Segment) : Decidable (ListsBounded S s) := by
  unfold ListsBounded CHUNKSZ_MAX_BIT
  infer_instance

theorem seedAux_mono (S : Nat) : ∀ fuel headP c s o cl,
    o ∈ s.freeLists cl → o ∈ (seedAux S fuel headP c s).freeLists cl := by
  intro fuel
  induction fuel with
  | zero => intro _ _ s o cl h; exact h
  | succ n ih =>
    intro headP c s o cl h
    unfold seedAux
    split
    · exact h
    · split
      · exact ih _ _ _ _ _ h
      · apply ih
        dsimp only
        by_cases hc : cl = c
        · subst hc
          rw [updList_same]
          exact List.mem_cons_of_mem _ h
        · rw [updList_other _ _ _ _ hc]
          exact h

theorem seedAux_bounded (S : Nat) : ∀ fuel headP c s,
    ListsBounded S s → ListsBounded S (seedAux S fuel headP c s) := by
  intro fuel
  induction fuel with
  | zero => intro _ _ s h; exact h
  | succ n ih =>
    intro headP c s h
    unfold seedAux
    split
    · exact h
    · split
      · exact ih _ _ _ h
      · rename_i hfit
        apply ih
        intro cl hcl o ho
        dsimp only at ho
        by_cases hc : cl = c
        · subst hc
          rw [updList_same] at ho
          rcases List.mem_cons.mp ho with rfl | ho2
          · omega
          · exact h cl hcl o ho2
        · rw [updList_other _ _ _ _ hc] at ho
          exact h cl hcl o ho

theorem seedAux_reach (S p : Nat) (hp : CHUNKSZ_MIN_BIT ≤ p) (hpow : 2 ^ p ≤ S)
    (hup : ∀ c, p < c → c ≤ CHUNKSZ_MAX_BIT → S < 2 ^ c) :
    ∀ n fuel s, p + n ≤ CHUNKSZ_MAX_BIT → n < fuel →
      0 ∈ (seedAux S fuel 0 (p + n) s).freeLists p := by
  intro n
  induction n with
  | zero =>
    intro fuel s hle hfuel
    match fuel, hfuel with
    | f+1, _ =>
      unfold seedAux
      rw [if_neg (by unfold CHUNKSZ_MIN_BIT at hp ⊢; omega)]
      rw [if_neg (by simpa using Nat.not_lt.mpr hpow)]
      apply seedAux_mono
      dsimp only
      simp only [Nat.add_zero]
      rw [updList_same]
      exact List.mem_cons_self _ _
  | succ k ih =>
    intro fuel s hle hfuel
    match fuel, hfuel with
    | f+1, hf =>
      unfold seedAux
      rw [if_neg (by unfold CHUNKSZ_MIN_BIT at hp ⊢; omega)]
      rw [if_pos (by
        have hc := hup (p + (k+1)) (by omega) hle
        omega)]
      have he : p + (k + 1) - 1 = p + k := by omega
      rw [he]
      exact ih f s (by omega) (by omega)

theorem blank_bounded (S : Nat) (s : Segment) :
    ListsBounded S { s with hdrs := fun _ => (⟨false, none, 0, 0, 0, 0⟩ : Hdr),
                            freeLists := fun _ => [],
                            numChunks := 0,
                            revision := (s.revision + 1) % 2 ^ 32,
                            payload := fun _ => 0 } := by
  intro c hc o ho
  simp at ho

/-- A fresh segment of any configurable size below 2^34 seeds a free chunk
at offset 0 of the floor-log2 class, and all seeded chunks fit in the
segment. -/
theorem create_seeded (S : Nat) (s : Segment) (h256 : 256 ≤ S) (hS : S < 2 ^ 34) :
    CHUNKSZ_MIN_BIT ≤ get_prev_log2 S ∧
    get_prev_log2 S < CHUNKSZ_MAX_BIT ∧
    0 ∈ (dmaBufferCreateSegment S s).freeLists (get_prev_log2 S) ∧
    ListsBounded S (dmaBufferCreateSegment S s) := by
  have h1 : 1 ≤ S := by omega
  have hp8 : CHUNKSZ_MIN_BIT ≤ get_prev_log2 S := by
    unfold CHUNKSZ_MIN_BIT
    exact get_prev_log2_ge S 8 (by norm_num) (by norm_num; omega)
  have hpow : 2 ^ get_prev_log2 S ≤ S := get_prev_log2_pow_le S h1
  have hplt : get_prev_log2 S < CHUNKSZ_MAX_BIT := by
    unfold CHUNKSZ_MAX_BIT
    by_contra hge
    push_neg at hge
    have : (2:Nat) ^ 34 ≤ 2 ^ get_prev_log2 S := Nat.pow_le_pow_right (by norm_num) hge
    omega
  have hup : ∀ c, get_prev_log2 S < c → c ≤ CHUNKSZ_MAX_BIT → S < 2 ^ c := by
    intro c hlt hle
    exact get_prev_log2_lt S c (by unfold CHUNKSZ_MAX_BIT at hle; omega) hlt
  refine ⟨hp8, hplt, ?_, ?_⟩
  · unfold dmaBufferCreateSegment
    have he : get_prev_log2 S + (CHUNKSZ_MAX_BIT - get_prev_log2 S) = CHUNKSZ_MAX_BIT := by
      omega
    rw [← he]
    exact seedAux_reach S (get_prev_log2 S) hp8 hpow hup
      (CHUNKSZ_MAX_BIT - get_prev_log2 S) 128 _ (by omega)
      (by unfold CHUNKSZ_MAX_BIT; omega)
  · unfold dmaBufferCreateSegment
    exact seedAux_bounded S 128 0 CHUNKSZ_MAX_BIT _ (blank_bounded S s)

/-! ### Split and allocation lemmas -/

theorem splitAux_bounded (S : Nat) : ∀ fuel m s s1, 1 ≤ m → ListsBounded S s →
    splitAux fuel s m = some s1 → ListsBounded S s1 := by
  intro fuel
  induction fuel with
  | zero => intro m s s1 _ _ h; exact absurd h (by simp [splitAux])
  | succ n ih =>
    intro m s s1 hm1 hB h
    unfold splitAux at h
    split at h
    · exact absurd h (by simp)
    · rename_i hguard
      split at h
      · exact absurd h (by simp)
      · rename_i s2 heq
        have hB2 : ListsBounded S s2 := by
          split at heq
          · exact ih (m+1) s s2 (by omega) hB heq
          · injection heq with heq2
            rw [← heq2]
            exact hB
        split at h
        · exact absurd h (by simp)
        · rename_i o rest hl
          injection h with h2
          rw [← h2]
          have hm34 : m ≤ CHUNKSZ_MAX_BIT := by
            unfold CHUNKSZ_MAX_BIT at hguard ⊢
            omega
          have hobound : o + 2 ^ m ≤ S := by
            refine hB2 m hm34 o ?_
            rw [hl]
            exact List.mem_cons_self _ _
          have hpowsplit : 2 ^ (m - 1) + 2 ^ (m - 1) = 2 ^ m := by
            have : m - 1 + 1 = m := by omega
            calc 2 ^ (m - 1) + 2 ^ (m - 1) = 2 ^ (m - 1) * 2 := by ring
            _ = 2 ^ (m - 1 + 1) := by rw [pow_succ]
            _ = 2 ^ m := by rw [this]
          intro cl hcl x hx
          dsimp only at hx
          by_cases hcm1 : cl = m - 1
          · subst hcm1
            rw [updList_same] at hx
            rcases List.mem_append.mp hx with hold | hnew
            · exact hB2 _ hcl x hold
            · have hpowle : (2:Nat) ^ (m - 1) ≤ 2 ^ m :=
                Nat.pow_le_pow_right (by norm_num) (by omega)
              rcases List.mem_cons.mp hnew with rfl | hx2
              · omega
              · rcases List.mem_cons.mp hx2 with rfl | hx3
                · omega
                · exact absurd hx3 (List.not_mem_nil _)
          · rw [updList_other _ _ _ _ hcm1] at hx
            by_cases hcm : cl = m
            · subst hcm
              rw [updList_same] at hx
              refine hB2 cl hcl x ?_
              rw [hl]
              exact List.mem_cons_of_mem _ hx
            · rw [updList_other _ _ _ _ hcm] at hx
              exact hB2 cl hcl x hx

theorem splitAux_succ : ∀ n fuel m s, m + n < CHUNKSZ_MAX_BIT →
    s.freeLists (m + n) ≠ [] → n < fuel →
    ∃ s1, splitAux fuel s m = some s1 ∧ s1.freeLists (m - 1) ≠ [] := by
  intro n
  induction n with
  | zero =>
    intro fuel m s hlt hne hfuel
    match fuel, hfuel with
    | f+1, _ =>
      rw [Nat.add_zero] at hlt hne
      unfold splitAux
      rw [if_neg (by omega)]
      rw [if_neg (by
        cases hl : s.freeLists m with
        | nil => exact absurd hl hne
        | cons o rest => simp [hl])]
      dsimp only
      cases hl : s.freeLists m with
      | nil => exact absurd hl hne
      | cons o rest =>
        refine ⟨_, rfl, ?_⟩
        dsimp only
        rw [updList_same]
        simp
  | succ k ih =>
    intro fuel m s hlt hne hfuel
    match fuel, hfuel with
    | f+1, hf =>
      unfold splitAux
      rw [if_neg (by omega)]
      by_cases hemp : (s.freeLists m).isEmpty
      · rw [if_pos hemp]
        obtain ⟨s2, heq, hne2⟩ := ih f (m+1) s (by omega) (by
          have he : m + 1 + k = m + (k + 1) := by omega
          rw [he]
          exact hne) (by omega)
        rw [heq]
        have he1 : m + 1 - 1 = m := by omega
        rw [he1] at hne2
        dsimp only
        cases hl : s2.freeLists m with
        | nil => exact absurd hl hne2
        | cons o rest =>
          refine ⟨_, rfl, ?_⟩
          dsimp only
          rw [updList_same]
          simp
      · rw [if_neg hemp]
        have hnem : s.freeLists m ≠ [] := by
          intro hcontra
          rw [hcontra] at hemp
          exact hemp rfl
        dsimp only
        cases hl : s.freeLists m with
        | nil => exact absurd hl hnem
        | cons o rest =>
          refine ⟨_, rfl, ?_⟩
          dsimp only
          rw [updList_same]
          simp

theorem allocChunk_success (s : Segment) (m r : Nat)
    (h : ∃ k, m ≤ k ∧ k < CHUNKSZ_MAX_BIT ∧ s.freeLists k ≠ []) :
    ∃ o s2, dmaBufferAllocChunk s m r = some (o, s2) := by
  obtain ⟨k, hmk, hk34, hkne⟩ := h
  unfold dmaBufferAllocChunk
  by_cases hemp : (s.freeLists m).isEmpty
  · rw [if_pos hemp]
    have hkm : m < k := by
      rcases Nat.lt_or_ge m k with hx | hx
      · exact hx
      · exfalso
        have : k = m := by omega
        subst this
        cases hl : s.freeLists k with
        | nil => exact hkne hl
        | cons a b => rw [hl] at hemp; exact absurd hemp (by simp)
    obtain ⟨s1, heq, hne1⟩ := splitAux_succ (k - (m+1)) 35 (m+1) s
      (by omega) (by
        have he : m + 1 + (k - (m+1)) = k := by omega
        rw [he]
        exact hkne) (by unfold CHUNKSZ_MAX_BIT at hk34; omega)
    unfold dmaBufferSplitChunk
    rw [heq]
    have he1 : m + 1 - 1 = m := by omega
    rw [he1] at hne1
    dsimp only
    cases hl : s1.freeLists m with
    | nil => exact absurd hl hne1
    | cons o rest =>
      exact ⟨o, _, rfl⟩
  · rw [if_neg hemp]
    have hnem : s.freeLists m ≠ [] := by
      intro hcontra
      rw [hcontra] at hemp
      exact hemp rfl
    dsimp only
    cases hl : s.freeLists m with
    | nil => exact absurd hl hnem
    | cons o rest =>
      exact ⟨o, _, rfl⟩

theorem allocChunk_post (S : Nat) (s : Segment) (m r o : Nat) (s2 : Segment)
    (hB : ListsBounded S s) (hm1 : 1 ≤ m) (hm34 : m ≤ CHUNKSZ_MAX_BIT)
    (h : dmaBufferAllocChunk s m r = some (o, s2)) :
    s2.hdrs o = ⟨false, none, r, m, MAGIC, MAGIC⟩ ∧
    o + 2 ^ m ≤ S ∧ ListsBounded S s2 ∧
    s2.numChunks = s.numChunks + 1 := by
  unfold dmaBufferAllocChunk at h
  have hnum : ∀ fuel mm s1, splitAux fuel s mm = some s1 → s1.numChunks = s.numChunks := by
    intro fuel
    induction fuel with
    | zero => intro mm s1 hx; exact absurd hx (by simp [splitAux])
    | succ n ih =>
      intro mm s1 hx
      unfold splitAux at hx
      split at hx
      · exact absurd hx (by simp)
      · split at hx
        · exact absurd hx (by simp)
        · rename_i s3 heq
          have h3 : s3.numChunks = s.numChunks := by
            split at heq
            · exact ih _ _ heq
            · injection heq with heq2
              rw [← heq2]
          split at hx
          · exact absurd hx (by simp)
          · injection hx with hx2
            rw [← hx2]
            exact h3
  split at h
  · exact absurd h (by simp)
  · rename_i s1 heq
    have hB1 : ListsBounded S s1 := by
      split at heq
      · exact splitAux_bounded S 35 (m+1) s s1 (by omega) hB heq
      · injection heq with heq2
        rw [← heq2]
        exact hB
    have hnum1 : s1.numChunks = s.numChunks := by
      split at heq
      · exact hnum 35 (m+1) s1 heq
      · injection heq with heq2
        rw [← heq2]
    split at h
    · exact absurd h (by simp)
    · rename_i o1 rest hl
      injection h with hpair
      injection hpair with ho hs2
      subst ho
      rw [← hs2]
      refine ⟨?_, ?_, ?_, ?_⟩
      · dsimp only
        rw [updHdr_same]
      · refine hB1 m hm34 _ ?_
        rw [hl]
        exact List.mem_cons_self _ _
      · intro cl hcl x hx
        dsimp only at hx
        by_cases hcm : cl = m
        · subst hcm
          rw [updList_same] at hx
          refine hB1 cl hcl x ?_
          rw [hl]
          exact List.mem_cons_of_mem _ hx
        · rw [updList_other _ _ _ _ hcm] at hx
          exact hB1 cl hcl x hx
      · dsimp only
        rw [hnum1]

/-! ### Directory-level allocation lemmas -/

theorem scanActive_some (segs : Nat → Segment) (m r : Nat) : ∀ l i o s1,
    scanActive segs m r l = some (i, o, s1) →
    i ∈ l ∧ dmaBufferAllocChunk (segs i) m r = some (o, s1) := by
  intro l
  induction l with
  | nil => intro i o s1 h; exact absurd h (by simp [scanActive])
  | cons j t ih =>
    intro i o s1 h
    unfold scanActive at h
    split at h
    · rename_i o2 s2 heq
      injection h with hpair
      injection hpair with h1 h2
      subst h1
      injection h2 with h3 h4
      subst h3
      rw [← h4]
      exact ⟨List.mem_cons_self _ _, heq⟩
    · obtain ⟨hmem, halloc⟩ := ih i o s1 h
      exact ⟨List.mem_cons_of_mem _ hmem, halloc⟩

theorem pointer_validation_ok (d : Directory) (i o : Nat)
    (hi : i < d.numSegs) (ho : o < d.segSize)
    (hbig : HDRSZ + ((d.segs i).hdrs o).required + 4 ≤ 2 ^ ((d.segs i).hdrs o).mclass)
    (hmagH : ((d.segs i).hdrs o).magicHead = MAGIC)
    (hmagT : ((d.segs i).hdrs o).magicTail = MAGIC)
    (hfree : ((d.segs i).hdrs o).freeChain = false) :
    pointer_validation d (i * d.segSize + o + HDRSZ) = .ok (i, o) := by
  unfold pointer_validation
  rw [if_neg (by omega : ¬ (i * d.segSize + o + HDRSZ < HDRSZ))]
  dsimp only
  have hco : i * d.segSize + o + HDRSZ - HDRSZ = i * d.segSize + o := by omega
  rw [hco]
  have hS0 : 0 < d.segSize := by omega
  have hrange : ¬ (d.numSegs * d.segSize ≤ i * d.segSize + o) := by
    push_neg
    calc i * d.segSize + o < i * d.segSize + d.segSize := by omega
    _ = (i + 1) * d.segSize := by ring
    _ ≤ d.numSegs * d.segSize := Nat.mul_le_mul_right _ (by omega)
  rw [if_neg hrange]
  have hdiv : (i * d.segSize + o) / d.segSize = i := by
    rw [Nat.add_comm (i * d.segSize) o, Nat.add_mul_div_right o i hS0,
      Nat.div_eq_of_lt ho]
    omega
  have hmod : (i * d.segSize + o) % d.segSize = o := by
    rw [Nat.add_comm (i * d.segSize) o, Nat.add_mul_mod_self_right,
      Nat.mod_eq_of_lt ho]
  rw [hdiv, hmod]
  rw [if_neg (by
    push_neg
    exact ⟨by omega, hmagH, hmagT⟩)]
  rw [hfree]
  simp

theorem finishAlloc_ok (d : Directory) (ctx : Option Nat) (required i o m : Nat) (s1 : Segment)
    (hdr1 : s1.hdrs o = ⟨false, none, required, m, MAGIC, MAGIC⟩)
    (hi : i < d.numSegs) (ho : o < d.segSize)
    (hbig : HDRSZ + required + 4 ≤ 2 ^ m) :
    (finishAlloc d ctx required i o s1).1 = i * d.segSize + o + HDRSZ ∧
    pointer_validation (finishAlloc d ctx required i o s1).2
      (finishAlloc d ctx required i o s1).1 = .ok (i, o) ∧
    dmaBufferSize (finishAlloc d ctx required i o s1).2
      (finishAlloc d ctx required i o s1).1 = .ok required ∧
    dmaBufferChunkSize (finishAlloc d ctx required i o s1).2
      (finishAlloc d ctx required i o s1).1 = .ok (2 ^ m) := by
  have hfst : (finishAlloc d ctx required i o s1).1 = i * d.segSize + o + HDRSZ := rfl
  have hsegSize : (finishAlloc d ctx required i o s1).2.segSize = d.segSize := rfl
  have hnumSegs : (finishAlloc d ctx required i o s1).2.numSegs = d.numSegs := rfl
  have hhdr : ((finishAlloc d ctx required i o s1).2.segs i).hdrs o =
      ⟨false, ctx, required, m, MAGIC, MAGIC⟩ := by
    unfold finishAlloc
    dsimp only
    rw [updSeg_same]
    dsimp only
    rw [updHdr_same, hdr1]
  have hval : pointer_validation (finishAlloc d ctx required i o s1).2
      (i * (finishAlloc d ctx required i o s1).2.segSize + o + HDRSZ) = .ok (i, o) := by
    apply pointer_validation_ok
    · rw [hnumSegs]; exact hi
    · rw [hsegSize]; exact ho
    · rw [hhdr]; exact hbig
    · rw [hhdr]
    · rw [hhdr]
    · rw [hhdr]
  rw [hsegSize] at hval
  refine ⟨hfst, by rw [hfst]; exact hval, ?_, ?_⟩
  · unfold dmaBufferSize
    rw [hfst, hval]
    dsimp only
    rw [hhdr]
  · unfold dmaBufferChunkSize
    rw [hfst, hval]
    dsimp only
    rw [hhdr]

/-! ### Claim C1 (amended): allocation size postcondition -/

/-- Shared success lemma for dmaBufferAllocInternal: on a directory whose
segment size is below 2^34 with an inactive segment at hand (and bounded
free lists on the active segments), an allocation of any size up to
dmaBufferMaxAllocSize succeeds and both size observers return the
specified values. -/
theorem allocInternal_sizes (d : Directory) (ctx : Option Nat) (required i0 : Nat) (rest : List Nat)
    (hS1 : 256 ≤ d.segSize) (hS2 : d.segSize < 2 ^ 34)
    (hreq2 : required ≤ dmaBufferMaxAllocSize d.segSize)
    (hinact : d.inactive = i0 :: rest) (hi0 : i0 < d.numSegs)
    (hact : ∀ j ∈ d.active, ListsBounded d.segSize (d.segs j) ∧ j < d.numSegs) :
    ∃ ptr d1 i o, dmaBufferAllocInternal d ctx required false = .ok (ptr, d1) ∧
      pointer_validation d1 ptr = .ok (i, o) ∧
      dmaBufferSize d1 ptr = .ok required ∧
      dmaBufferChunkSize d1 ptr = .ok (2 ^ mclassOf required) := by
  have hp8 : CHUNKSZ_MIN_BIT ≤ get_prev_log2 d.segSize :=
    get_prev_log2_ge d.segSize 8 (by norm_num)
      (le_trans (by norm_num) hS1)
  unfold CHUNKSZ_MIN_BIT at hp8
  have hpow : 2 ^ get_prev_log2 d.segSize ≤ d.segSize :=
    get_prev_log2_pow_le d.segSize (by omega)
  have h2p : 256 ≤ 2 ^ get_prev_log2 d.segSize := by
    calc (256:Nat) = 2 ^ 8 := by norm_num
    _ ≤ 2 ^ get_prev_log2 d.segSize := Nat.pow_le_pow_right (by norm_num) hp8
  have hplt : get_prev_log2 d.segSize < 34 := by
    by_contra hge
    push_neg at hge
    have h34 : (2:Nat) ^ 34 ≤ 2 ^ get_prev_log2 d.segSize :=
      Nat.pow_le_pow_right (by norm_num) hge
    omega
  have hmod8 : (2:Nat) ^ get_prev_log2 d.segSize % 8 = 0 := by
    have h3 : get_prev_log2 d.segSize = 3 + (get_prev_log2 d.segSize - 3) := by omega
    rw [h3, pow_add]
    norm_num
  have hmaxval : dmaBufferMaxAllocSize d.segSize =
      2 ^ get_prev_log2 d.segSize - 64 := by
    unfold dmaBufferMaxAllocSize MAXALIGN HDRSZ
    norm_num
  have hchunkle : chunkSizeOf required ≤ 2 ^ get_prev_log2 d.segSize := by
    unfold chunkSizeOf
    apply max_le
    · apply MAXALIGN_le _ _ hmod8
      unfold HDRSZ
      omega
    · unfold CHUNKSZ_MIN
      omega
  have hm_le_p : mclassOf required ≤ get_prev_log2 d.segSize := mclassOf_le _ _ hchunkle
  have hm34 : mclassOf required ≤ CHUNKSZ_MAX_BIT := by unfold CHUNKSZ_MAX_BIT; omega
  have hreqsmall : required ≤ 2 ^ 34 := by omega
  have hchunkpow : chunkSizeOf required ≤ 2 ^ mclassOf required :=
    pow_mclassOf_ge required hreqsmall
  have hbig : HDRSZ + required + 4 ≤ 2 ^ mclassOf required :=
    le_trans (chunkSizeOf_ge _) hchunkpow
  have hcmin : CHUNKSZ_MIN ≤ chunkSizeOf required := chunkSizeOf_min _
  have hm1 : 1 ≤ mclassOf required := by
    by_contra h0
    push_neg at h0
    have h00 : mclassOf required = 0 := by omega
    rw [h00] at hchunkpow
    unfold CHUNKSZ_MIN at hcmin
    simp at hchunkpow
    omega
  have hmpow : (0:Nat) < 2 ^ mclassOf required := pow_pos (by norm_num) _
  have hnotbig : ¬ (d.segSize < 2 ^ mclassOf required) := by
    push_neg
    calc (2:Nat) ^ mclassOf required ≤ 2 ^ get_prev_log2 d.segSize :=
      Nat.pow_le_pow_right (by norm_num) hm_le_p
    _ ≤ d.segSize := hpow
  unfold dmaBufferAllocInternal
  dsimp only
  rw [if_neg hnotbig]
  cases hscan : scanActive d.segs (mclassOf required) required d.active with
  | some tri =>
    obtain ⟨i, o, s1⟩ := tri
    obtain ⟨hmem, halloc⟩ := scanActive_some d.segs _ _ d.active i o s1 hscan
    obtain ⟨hBj, hjlt⟩ := hact i hmem
    obtain ⟨hhdr, hob, hB2, hnum⟩ :=
      allocChunk_post d.segSize (d.segs i) _ required o s1 hBj hm1 hm34 halloc
    have ho : o < d.segSize := by omega
    obtain ⟨hfst, hval, hsize, hchunks⟩ :=
      finishAlloc_ok d ctx required i o (mclassOf required) s1 hhdr hjlt ho hbig
    exact ⟨_, _, i, o, rfl, hval, hsize, hchunks⟩
  | none =>
    rw [hinact]
    dsimp only
    rw [if_neg (by simp : ¬ (false = true))]
    obtain ⟨hp8b, hp34b, hmem0, hBfresh⟩ := create_seeded d.segSize (d.segs i0) hS1 hS2
    obtain ⟨o, s2, halloc⟩ :=
      allocChunk_success (dmaBufferCreateSegment d.segSize (d.segs i0)) (mclassOf required)
        required
        ⟨get_prev_log2 d.segSize, hm_le_p, hp34b, by
          intro hnil
          rw [hnil] at hmem0
          exact absurd hmem0 (List.not_mem_nil _)⟩
    rw [halloc]
    dsimp only
    obtain ⟨hhdr, hob, hB2, hnum⟩ :=
      allocChunk_post d.segSize _ _ required o s2 hBfresh hm1 hm34 halloc
    have ho : o < d.segSize := by omega
    obtain ⟨hfst, hval, hsize, hchunks⟩ :=
      finishAlloc_ok { d with inactive := rest, active := i0 :: d.active, segs := updSeg d.segs i0 (dmaBufferCreateSegment d.segSize (d.segs i0)) } ctx required i0 o (mclassOf required) s2 hhdr hi0 ho hbig
    exact ⟨_, _, i0, o, rfl, hval, hsize, hchunks⟩

theorem freeInternal_ok (d : Directory) (p i o : Nat)
    (hv : pointer_validation d p = .ok (i, o)) :
    ∃ d2, dmaBufferFreeInternal d p = .ok d2 := by
  unfold dmaBufferFreeInternal
  rw [hv]
  dsimp only
  split
  · exact ⟨_, rfl⟩
  · exact ⟨_, rfl⟩

/-- Whether an allocation result is a success. -/
def allocSucceeds (r : Except (Err × Directory) (Nat × Directory)) : Bool :=
  match r with
  | .ok _ => true
  | .error _ => false

/-- Whether an allocation result is the Assert(chunk != NULL) branch after
a fresh segment was created. -/
def errIsNullChunk (r : Except (Err × Directory) (Nat × Directory)) : Bool :=
  match r with
  | .error (.nullChunk, _) => true
  | _ => false

/-- Claim C1 as amended: for every requested size in
[1, dmaBufferMaxAllocSize()], provided dma_segment_size is below 2^34
(at exactly 2^34 the mclass ≥ DMABUF_CHUNKSZ_MAX_BIT guard of
dmaBufferSplitChunk makes every class except 34 unobtainable from a fresh
segment, see the counterexample), dmaBufferAllocInternal succeeds;
dmaBufferChunkSize on the result equals 2^mclass where 2^mclass is the
smallest power of two that is at least
MAXALIGN(offsetof(dmaBufferChunk,data) + size + sizeof(cl_uint)), floored
at the 256-byte minimum class; and dmaBufferSize is exactly the requested
size. -/
theorem claim1_alloc_size (d : Directory) (ctx : Option Nat) (required i0 : Nat) (rest : List Nat)
    (hS1 : 256 ≤ d.segSize) (hS2 : d.segSize < 2 ^ 34)
    (hreq1 : 1 ≤ required) (hreq2 : required ≤ dmaBufferMaxAllocSize d.segSize)
    (hinact : d.inactive = i0 :: rest) (hi0 : i0 < d.numSegs)
    (hact : ∀ j ∈ d.active, ListsBounded d.segSize (d.segs j) ∧ j < d.numSegs) :
    ∃ ptr d1, dmaBufferAllocInternal d ctx required false = .ok (ptr, d1) ∧
      dmaBufferSize d1 ptr = .ok required ∧
      dmaBufferChunkSize d1 ptr = .ok (2 ^ mclassOf required) ∧
      chunkSizeOf required ≤ 2 ^ mclassOf required ∧
      (∀ k, chunkSizeOf required ≤ 2 ^ k → mclassOf required ≤ k) ∧
      CHUNKSZ_MIN ≤ chunkSizeOf required ∧
      MAXALIGN (HDRSZ + required + 4) ≤ chunkSizeOf required := by
  obtain ⟨ptr, d1, i, o, hok, hval, hsize, hchunks⟩ :=
    allocInternal_sizes d ctx required i0 rest hS1 hS2 hreq2 hinact hi0 hact
  have hpow : 2 ^ get_prev_log2 d.segSize ≤ d.segSize :=
    get_prev_log2_pow_le d.segSize (by omega)
  have hmax34 : dmaBufferMaxAllocSize d.segSize ≤ 2 ^ 34 := by
    unfold dmaBufferMaxAllocSize
    omega
  have hreqsmall : required ≤ 2 ^ 34 := le_trans hreq2 hmax34
  exact ⟨ptr, d1, hok, hsize, hchunks, pow_mclassOf_ge required hreqsmall,
    fun k hk => mclassOf_le _ _ hk, chunkSizeOf_min _, le_max_left _ _⟩

/-- Counterexample to claim C1 as stated: with the maximum configurable
segment size dma_segment_size = 2^34 (16GB), the requested size 1 lies in
[1, dmaBufferMaxAllocSize()] and yet the allocation does not succeed: the
fresh segment holds a single class-34 chunk which dmaBufferSplitChunk
refuses to split. -/
theorem claim1_counterexample :
    1 ≤ dmaBufferMaxAllocSize (2 ^ 34) ∧
    allocSucceeds (dmaBufferAllocInternal (initDirectory (2 ^ 34) 1 1) (some 0) 1 false) =
      false := by
  constructor
  · decide
  · rfl

/-- Witness for amended claim C1 at a concrete state: 100 bytes from the
fresh one-segment 4KB directory. -/
theorem claim1_witness :
    (256 ≤ exDir0.segSize ∧ exDir0.segSize < 2 ^ 34 ∧ 1 ≤ 100 ∧
      100 ≤ dmaBufferMaxAllocSize exDir0.segSize ∧
      exDir0.inactive = 0 :: [] ∧ 0 < exDir0.numSegs ∧
      (∀ j ∈ exDir0.active, ListsBounded exDir0.segSize (exDir0.segs j) ∧ j < exDir0.numSegs)) ∧
    ∃ ptr d1, dmaBufferAllocInternal exDir0 (some 7) 100 false = .ok (ptr, d1) ∧
      dmaBufferSize d1 ptr = .ok 100 ∧
      dmaBufferChunkSize d1 ptr = .ok (2 ^ mclassOf 100) := by
  have h1 : 256 ≤ exDir0.segSize := by decide
  have h2 : exDir0.segSize < 2 ^ 34 := by decide
  have h3 : (1:Nat) ≤ 100 := by decide
  have h4 : 100 ≤ dmaBufferMaxAllocSize exDir0.segSize := by decide
  have h5 : exDir0.inactive = 0 :: [] := by rfl
  have h6 : 0 < exDir0.numSegs := by decide
  have h7 : ∀ j ∈ exDir0.active, ListsBounded exDir0.segSize (exDir0.segs j) ∧ j < exDir0.numSegs := by
    intro j hj
    have hemp : exDir0.active = [] := rfl
    rw [hemp] at hj
    exact absurd hj (List.not_mem_nil _)
  obtain ⟨ptr, d1, hok, hsize, hchunks, -, -, -, -⟩ :=
    claim1_alloc_size exDir0 (some 7) 100 0 [] h1 h2 h3 h4 h5 h6 h7
  exact ⟨⟨h1, h2, h3, h4, h5, h6, h7⟩, ptr, d1, hok, hsize, hchunks⟩

/-- Claim C6, failing input: at dma_segment_size = 2^34 with one inactive
segment and request size 1 (whose class is 8), dmaBufferAllocInternal pops
and creates the segment and then reaches the null-chunk branch that the
code asserts unreachable (Assert(chunk != NULL)), instead of either
succeeding or raising the recoverable "Out of DMA buffer segment" error. -/
theorem claim6_nullchunk_reached :
    errIsNullChunk (dmaBufferAllocInternal (initDirectory (2 ^ 34) 1 1) (some 0) 1 false) =
      true ∧
    1 ≤ dmaBufferMaxAllocSize (2 ^ 34) ∧
    (initDirectory (2 ^ 34) 1 1).inactive ≠ [] := by
  refine ⟨rfl, by decide, by decide⟩

/-- Claim C9 as amended: a required size of 0 is floored to the minimum
256-byte class and the allocation does not fail (on a directory whose
segment size is below 2^34, with an inactive segment available):
dmaBufferSize of the result is 0, dmaBufferChunkSize is 256, the pointer
validates, and the chunk can be freed. -/
theorem claim9_zero_alloc (d : Directory) (ctx : Option Nat) (i0 : Nat) (rest : List Nat)
    (hS1 : 256 ≤ d.segSize) (hS2 : d.segSize < 2 ^ 34)
    (hinact : d.inactive = i0 :: rest) (hi0 : i0 < d.numSegs)
    (hact : ∀ j ∈ d.active, ListsBounded d.segSize (d.segs j) ∧ j < d.numSegs) :
    mclassOf 0 = CHUNKSZ_MIN_BIT ∧
    ∃ ptr d1 d2, dmaBufferAllocInternal d ctx 0 false = .ok (ptr, d1) ∧
      dmaBufferSize d1 ptr = .ok 0 ∧
      dmaBufferChunkSize d1 ptr = .ok 256 ∧
      dmaBufferValidatePtr d1 ptr = true ∧
      dmaBufferFreeInternal d1 ptr = .ok d2 := by
  obtain ⟨ptr, d1, i, o, hok, hval, hsize, hchunks⟩ :=
    allocInternal_sizes d ctx 0 i0 rest hS1 hS2 (Nat.zero_le _) hinact hi0 hact
  have hm : (2:Nat) ^ mclassOf 0 = 256 := by decide
  rw [hm] at hchunks
  obtain ⟨d2, hfree⟩ := freeInternal_ok d1 ptr i o hval
  refine ⟨by decide, ptr, d1, d2, hok, hsize, hchunks, ?_, hfree⟩
  unfold dmaBufferValidatePtr
  rw [hval]
  rfl

/-- Counterexample to claim C9 as stated: at dma_segment_size = 2^34 a
zero-byte allocation from a fresh segment fails (the same split-guard
defect as for claim C1), so "does not fail" does not hold universally. -/
theorem claim9_counterexample :
    allocSucceeds (dmaBufferAllocInternal (initDirectory (2 ^ 34) 1 1) (some 0) 0 false) =
      false := by
  rfl

/-- Witness for amended claim C9 at a concrete state. -/
theorem claim9_witness :
    (256 ≤ exDir0.segSize ∧ exDir0.segSize < 2 ^ 34 ∧
      exDir0.inactive = 0 :: [] ∧ 0 < exDir0.numSegs ∧
      (∀ j ∈ exDir0.active, ListsBounded exDir0.segSize (exDir0.segs j) ∧ j < exDir0.numSegs)) ∧
    mclassOf 0 = CHUNKSZ_MIN_BIT ∧
    ∃ ptr d1 d2, dmaBufferAllocInternal exDir0 (some 7) 0 false = .ok (ptr, d1) ∧
      dmaBufferSize d1 ptr = .ok 0 ∧
      dmaBufferChunkSize d1 ptr = .ok 256 ∧
      dmaBufferValidatePtr d1 ptr = true ∧
      dmaBufferFreeInternal d1 ptr = .ok d2 := by
  have h1 : 256 ≤ exDir0.segSize := by decide
  have h2 : exDir0.segSize < 2 ^ 34 := by decide
  have h5 : exDir0.inactive = 0 :: [] := by rfl
  have h6 : 0 < exDir0.numSegs := by decide
  have h7 : ∀ j ∈ exDir0.active, ListsBounded exDir0.segSize (exDir0.segs j) ∧ j < exDir0.numSegs := by
    intro j hj
    have hemp : exDir0.active = [] := rfl
    rw [hemp] at hj
    exact absurd hj (List.not_mem_nil _)
  obtain ⟨hm, hrest⟩ := claim9_zero_alloc exDir0 (some 7) 0 [] h1 h2 h5 h6 h7
  exact ⟨⟨h1, h2, h5, h6, h7⟩, hm, hrest⟩

/-! ### Bit arithmetic: the xor buddy address equals the computed one -/

theorem lt_pow_of_testBit_false (b c : Nat) (hlt : b < 2 ^ (c+1)) (h : b.testBit c = false) :
    b < 2 ^ c := by
  by_contra hge
  push_neg at hge
  have hdiv : b / 2 ^ c = 1 := by
    apply Nat.div_eq_of_lt_le
    · omega
    · have h2 : (2:Nat) ^ (c+1) = 2 * 2 ^ c := by ring
      omega
  have ht : b.testBit c = decide (b / 2 ^ c % 2 = 1) := Nat.testBit_to_div_mod
  rw [hdiv, h] at ht
  simp at ht

theorem xor_two_pow_of_testBit_false (o c : Nat) (h : o.testBit c = false) :
    o ^^^ 2 ^ c = o + 2 ^ c := by
  have hpow : (0:Nat) < 2 ^ (c+1) := pow_pos (by norm_num) _
  have hbbit : (o % 2 ^ (c+1)).testBit c = false := by
    rw [Nat.testBit_mod_two_pow]
    simp [h]
  have hbc : o % 2 ^ (c+1) < 2 ^ c :=
    lt_pow_of_testBit_false _ c (Nat.mod_lt _ hpow) hbbit
  obtain ⟨a, b, hblt2, hbc2, rfl⟩ :
      ∃ a b, b < 2 ^ (c+1) ∧ b < 2 ^ c ∧ o = 2 ^ (c+1) * a + b :=
    ⟨o / 2 ^ (c+1), o % 2 ^ (c+1), Nat.mod_lt _ hpow, hbc, (Nat.div_add_mod o _).symm⟩
  apply Nat.eq_of_testBit_eq
  intro j
  rw [Nat.testBit_xor]
  have hb2 : b + 2 ^ c < 2 ^ (c+1) := by
    have hx : (2:Nat) ^ (c+1) = 2 ^ c + 2 ^ c := by ring
    omega
  have hadd : 2 ^ (c+1) * a + b + 2 ^ c = 2 ^ (c+1) * a + (b + 2 ^ c) := by ring
  rw [hadd, Nat.testBit_mul_pow_two_add a hb2 j, Nat.testBit_mul_pow_two_add a hblt2 j]
  have hbc1 : b + 2 ^ c = 2 ^ c * 1 + b := by ring
  rcases Nat.lt_trichotomy j c with hj | hj | hj
  · rw [if_pos (by omega : j < c + 1), if_pos (by omega : j < c + 1)]
    rw [Nat.testBit_two_pow_of_ne (by omega : c ≠ j)]
    rw [hbc1, Nat.testBit_mul_pow_two_add 1 hbc2 j, if_pos hj]
    simp
  · subst hj
    rw [if_pos (by omega : j < j + 1), if_pos (by omega : j < j + 1)]
    rw [hbc1, Nat.testBit_mul_pow_two_add 1 hbc2 j, if_neg (by omega : ¬ j < j)]
    rw [Nat.testBit_lt_two_pow hbc2]
    simp
  · rw [if_neg (by omega : ¬ j < c + 1), if_neg (by omega : ¬ j < c + 1)]
    rw [Nat.testBit_two_pow_of_ne (by omega : c ≠ j)]
    simp

theorem xor_two_pow_of_testBit_true (o c : Nat) (h : o.testBit c = true) :
    o ^^^ 2 ^ c = o - 2 ^ c := by
  have hge : 2 ^ c ≤ o := by
    by_contra hlt
    push_neg at hlt
    rw [Nat.testBit_lt_two_pow hlt] at h
    exact Bool.false_ne_true h
  have hfalse : (o - 2 ^ c).testBit c = false := by
    have hpow : (0:Nat) < 2 ^ (c+1) := pow_pos (by norm_num) _
    have hbbit : (o % 2 ^ (c+1)).testBit c = true := by
      rw [Nat.testBit_mod_two_pow]
      simp [h]
    have hblt : o % 2 ^ (c+1) < 2 ^ (c+1) := Nat.mod_lt _ hpow
    have hble : 2 ^ c ≤ o % 2 ^ (c+1) := by
      by_contra hlt2
      push_neg at hlt2
      rw [Nat.testBit_lt_two_pow hlt2] at hbbit
      exact Bool.false_ne_true hbbit
    have hdm := Nat.div_add_mod o (2 ^ (c+1))
    have hrepr : o - 2 ^ c = 2 ^ (c+1) * (o / 2 ^ (c+1)) + (o % 2 ^ (c+1) - 2 ^ c) := by
      omega
    have hsub : o % 2 ^ (c+1) - 2 ^ c < 2 ^ c := by
      have h2 : (2:Nat) ^ (c+1) = 2 ^ c + 2 ^ c := by ring
      omega
    rw [hrepr, Nat.testBit_mul_pow_two_add _ (by omega : o % 2 ^ (c+1) - 2 ^ c < 2 ^ (c+1)) c,
      if_pos (by omega : c < c + 1)]
    exact Nat.testBit_lt_two_pow hsub
  have hx := xor_two_pow_of_testBit_false (o - 2 ^ c) c hfalse
  have ho : o - 2 ^ c + 2 ^ c = o := by omega
  rw [ho] at hx
  calc o ^^^ 2 ^ c = ((o - 2 ^ c) ^^^ 2 ^ c) ^^^ 2 ^ c := by rw [hx]
  _ = o - 2 ^ c := Nat.xor_cancel_right _ _

theorem ge_of_testBit_true (o c : Nat) (h : o.testBit c = true) : 2 ^ c ≤ o := by
  by_contra hlt
  push_neg at hlt
  rw [Nat.testBit_lt_two_pow hlt] at h
  exact Bool.false_ne_true h

/-! ### Merge loop step lemmas -/

/-- The condition under which the merge loop of __dmaBufferFree does not
merge the chunk at offset o of the stated class with its buddy: the buddy
is out of the segment, or it does not have the same class and a linked
free_chain. -/
def noMergeBuddy (segSize : Nat) (s : Segment) (o c : Nat) : Prop :=
  if o.testBit c then
    o < 2 ^ c ∨ ¬ ((s.hdrs (o - 2 ^ c)).mclass = c ∧ (s.hdrs (o - 2 ^ c)).freeChain = true)
  else
    segSize ≤ o + 2 ^ c ∨
      ¬ ((s.hdrs (o + 2 ^ c)).mclass = c ∧ (s.hdrs (o + 2 ^ c)).freeChain = true)

instance (segSize : Nat) (s : Segment) (o c : Nat) :
    Decidable (noMergeBuddy segSize s o c) := by
  unfold noMergeBuddy
  infer_instance

theorem mergeAux_exit (segSize : Nat) (fuel : Nat) (s : Segment) (o : Nat)
    (h : noMergeBuddy segSize s o ((s.hdrs o).mclass)) :
    mergeAux segSize (fuel+1) s o = (s, o) := by
  unfold mergeAux
  dsimp only
  by_cases hcl : CHUNKSZ_MAX_BIT < (s.hdrs o).mclass
  · rw [if_pos hcl]
  · rw [if_neg hcl]
    unfold noMergeBuddy at h
    by_cases htb : o.testBit ((s.hdrs o).mclass)
    · rw [if_pos htb] at h
      rw [if_pos htb]
      by_cases hlow : o < 2 ^ ((s.hdrs o).mclass)
      · rw [if_pos hlow]
      · rcases h with hb | hnm
        · exact absurd hb hlow
        · rw [if_neg hlow, if_neg hnm]
    · rw [if_neg htb] at h
      rw [if_neg htb]
      by_cases hhi : segSize ≤ o + 2 ^ ((s.hdrs o).mclass)
      · rw [if_pos hhi]
      · rcases h with hb | hnm
        · exact absurd hb hhi
        · rw [if_neg hhi, if_neg hnm]

theorem mergeAux_step_up (segSize : Nat) (fuel : Nat) (s : Segment) (o : Nat)
    (hcl : ¬ CHUNKSZ_MAX_BIT < (s.hdrs o).mclass)
    (htb : o.testBit ((s.hdrs o).mclass) = false)
    (hbound : o + 2 ^ ((s.hdrs o).mclass) < segSize)
    (hck : (s.hdrs (o + 2 ^ ((s.hdrs o).mclass))).mclass = (s.hdrs o).mclass ∧
           (s.hdrs (o + 2 ^ ((s.hdrs o).mclass))).freeChain = true) :
    mergeAux segSize (fuel+1) s o =
      mergeAux segSize fuel
        { s with
          freeLists := updList s.freeLists ((s.hdrs o).mclass)
            ((s.freeLists ((s.hdrs o).mclass)).erase (o + 2 ^ ((s.hdrs o).mclass))),
          hdrs := updHdr s.hdrs o { s.hdrs o with mclass := (s.hdrs o).mclass + 1 } } o := by
  simp only [mergeAux]
  rw [if_neg hcl, if_neg (by rw [htb]; exact Bool.false_ne_true),
    if_neg (by omega : ¬ segSize ≤ o + 2 ^ ((s.hdrs o).mclass)), if_pos hck]

theorem mergeAux_step_down (segSize : Nat) (fuel : Nat) (s : Segment) (o : Nat)
    (hcl : ¬ CHUNKSZ_MAX_BIT < (s.hdrs o).mclass)
    (htb : o.testBit ((s.hdrs o).mclass) = true)
    (hck : (s.hdrs (o - 2 ^ ((s.hdrs o).mclass))).mclass = (s.hdrs o).mclass ∧
           (s.hdrs (o - 2 ^ ((s.hdrs o).mclass))).freeChain = true) :
    mergeAux segSize (fuel+1) s o =
      mergeAux segSize fuel
        { s with
          freeLists := updList s.freeLists ((s.hdrs o).mclass)
            ((s.freeLists ((s.hdrs o).mclass)).erase (o - 2 ^ ((s.hdrs o).mclass))),
          hdrs := updHdr s.hdrs (o - 2 ^ ((s.hdrs o).mclass))
            { s.hdrs (o - 2 ^ ((s.hdrs o).mclass)) with
              mclass := (s.hdrs o).mclass + 1 } } (o - 2 ^ ((s.hdrs o).mclass)) := by
  have hge : 2 ^ ((s.hdrs o).mclass) ≤ o := ge_of_testBit_true o _ htb
  simp only [mergeAux]
  rw [if_neg hcl, if_pos htb, if_neg (by omega : ¬ o < 2 ^ ((s.hdrs o).mclass)), if_pos hck]

/-- Claim C2: when a chunk of class c is freed and its buddy at offset
o XOR (1 << c) is free, of the same class, and within segment bounds, the
two coalesce into exactly one free chunk of class c+1 at the lower of the
two offsets, removed from the class-c free list and pushed onto the
class-(c+1) free list; under the stated stop condition (the parent's own
buddy is not again mergeable) the merging stops there, and when the parent
buddy is again free and of the parent class the loop continues
transitively toward the maximum class (the noMergeBuddy hypothesis is
exactly that guard). -/
theorem claim2_buddy_merge (segSize : Nat) (s : Segment) (o c : Nat)
    (hcls : (s.hdrs o).mclass = c)
    (hc : c < CHUNKSZ_MAX_BIT)
    (hbfree : (s.hdrs (o ^^^ 2 ^ c)).freeChain = true)
    (hbcls : (s.hdrs (o ^^^ 2 ^ c)).mclass = c)
    (hbbound : (o ^^^ 2 ^ c) + 2 ^ c ≤ segSize)
    (hstop : noMergeBuddy segSize s (min o (o ^^^ 2 ^ c)) (c + 1)) :
    (freeChunkSeg segSize s o).freeLists (c + 1) =
        min o (o ^^^ 2 ^ c) :: s.freeLists (c + 1) ∧
    (freeChunkSeg segSize s o).freeLists c = (s.freeLists c).erase (o ^^^ 2 ^ c) ∧
    (∀ j, j ≠ c → j ≠ c + 1 → (freeChunkSeg segSize s o).freeLists j = s.freeLists j) ∧
    ((freeChunkSeg segSize s o).hdrs (min o (o ^^^ 2 ^ c))).mclass = c + 1 ∧
    ((freeChunkSeg segSize s o).hdrs (min o (o ^^^ 2 ^ c))).freeChain = true ∧
    (freeChunkSeg segSize s o).numChunks = s.numChunks - 1 := by
  have hpowpos : (0:Nat) < 2 ^ c := pow_pos (by norm_num) _
  have hpow1pos : (0:Nat) < 2 ^ (c+1) := pow_pos (by norm_num) _
  have h36 : (36:Nat) = 35 + 1 := by norm_num
  have h35 : (35:Nat) = 34 + 1 := by norm_num
  unfold freeChunkSeg
  dsimp only
  cases htb : o.testBit c with
  | false =>
    have hbval : o ^^^ 2 ^ c = o + 2 ^ c := xor_two_pow_of_testBit_false o c htb
    rw [hbval] at hbfree hbcls hbbound hstop ⊢
    have hmin : min o (o + 2 ^ c) = o := min_eq_left (by omega)
    rw [hmin] at hstop ⊢
    have hc0 : (({ s with
        payload := scrub s.payload (o + HDRSZ) ((s.hdrs o).required) 0xf5,
        hdrs := updHdr s.hdrs o { s.hdrs o with shgcon := none } } : Segment).hdrs o).mclass
        = c := by
      dsimp only
      rw [updHdr_same]
      exact hcls
    have hb0 : (({ s with
        payload := scrub s.payload (o + HDRSZ) ((s.hdrs o).required) 0xf5,
        hdrs := updHdr s.hdrs o { s.hdrs o with shgcon := none } } : Segment).hdrs (o + 2 ^ c))
        = s.hdrs (o + 2 ^ c) := by
      dsimp only
      rw [updHdr_other _ _ _ _ (by omega : o + 2 ^ c ≠ o)]
    rw [h36]
    rw [mergeAux_step_up segSize 35 _ o
      (by rw [hc0]; unfold CHUNKSZ_MAX_BIT at hc ⊢; omega)
      (by rw [hc0]; exact htb)
      (by rw [hc0]; omega)
      (by rw [hc0, hb0]; exact ⟨hbcls, hbfree⟩)]
    rw [hc0]
    rw [h35]
    rw [mergeAux_exit segSize 34 _ o ?hstop1]
    case hstop1 =>
      have hc1 : ∀ v : Hdr, (updHdr (updHdr s.hdrs o { s.hdrs o with shgcon := none }) o v) o = v :=
        fun v => updHdr_same _ _ _
      dsimp only
      rw [hc1]
      dsimp only
      unfold noMergeBuddy at hstop ⊢
      cases htb1 : o.testBit (c+1) with
      | false =>
        rw [htb1] at hstop
        simp only [Bool.false_eq_true, if_false] at hstop ⊢
        rcases hstop with hx | hx
        · exact Or.inl hx
        · right
          rw [updHdr_other _ _ _ _ (by omega : o + 2 ^ (c+1) ≠ o),
            updHdr_other _ _ _ _ (by omega : o + 2 ^ (c+1) ≠ o)]
          exact hx
      | true =>
        rw [htb1] at hstop
        simp only [if_true] at hstop ⊢
        have hge1 : 2 ^ (c+1) ≤ o := ge_of_testBit_true o (c+1) htb1
        rcases hstop with hx | hx
        · exact Or.inl hx
        · right
          rw [updHdr_other _ _ _ _ (by omega : o - 2 ^ (c+1) ≠ o),
            updHdr_other _ _ _ _ (by omega : o - 2 ^ (c+1) ≠ o)]
          exact hx
    · dsimp only
      rw [updHdr_same]
      dsimp only
      refine ⟨?_, ?_, ?_, ?_, ?_, ?_⟩
      · rw [updList_same, updList_other _ _ _ _ (by omega : c + 1 ≠ c)]
      · rw [updList_other _ _ _ _ (by omega : c ≠ c + 1), updList_same]
      · intro j hj1 hj2
        rw [updList_other _ _ _ _ hj2, updList_other _ _ _ _ hj1]
      · rw [updHdr_same]
      · rw [updHdr_same]
      · rfl
  | true =>
    have hbval : o ^^^ 2 ^ c = o - 2 ^ c := xor_two_pow_of_testBit_true o c htb
    have hge : 2 ^ c ≤ o := ge_of_testBit_true o c htb
    rw [hbval] at hbfree hbcls hbbound hstop ⊢
    have hmin : min o (o - 2 ^ c) = o - 2 ^ c := min_eq_right (by omega)
    rw [hmin] at hstop ⊢
    have hc0 : (({ s with
        payload := scrub s.payload (o + HDRSZ) ((s.hdrs o).required) 0xf5,
        hdrs := updHdr s.hdrs o { s.hdrs o with shgcon := none } } : Segment).hdrs o).mclass
        = c := by
      dsimp only
      rw [updHdr_same]
      exact hcls
    have hb0 : (({ s with
        payload := scrub s.payload (o + HDRSZ) ((s.hdrs o).required) 0xf5,
        hdrs := updHdr s.hdrs o { s.hdrs o with shgcon := none } } : Segment).hdrs (o - 2 ^ c))
        = s.hdrs (o - 2 ^ c) := by
      dsimp only
      rw [updHdr_other _ _ _ _ (by omega : o - 2 ^ c ≠ o)]
    rw [h36]
    rw [mergeAux_step_down segSize 35 _ o
      (by rw [hc0]; unfold CHUNKSZ_MAX_BIT at hc ⊢; omega)
      (by rw [hc0]; exact htb)
      (by rw [hc0, hb0]; exact ⟨hbcls, hbfree⟩)]
    rw [hc0]
    rw [h35]
    rw [mergeAux_exit segSize 34 _ (o - 2 ^ c) ?hstop2]
    case hstop2 =>
      have hcb : ∀ v : Hdr,
          (updHdr (updHdr s.hdrs o { s.hdrs o with shgcon := none }) (o - 2 ^ c) v)
            (o - 2 ^ c) = v :=
        fun v => updHdr_same _ _ _
      dsimp only
      rw [hcb]
      dsimp only
      unfold noMergeBuddy at hstop ⊢
      cases htb1 : (o - 2 ^ c).testBit (c+1) with
      | false =>
        rw [htb1] at hstop
        simp only [Bool.false_eq_true, if_false] at hstop ⊢
        rcases hstop with hx | hx
        · exact Or.inl hx
        · right
          have hne1 : o - 2 ^ c + 2 ^ (c+1) ≠ o - 2 ^ c := by omega
          have hne2 : o - 2 ^ c + 2 ^ (c+1) ≠ o := by
            have hx2 : (2:Nat) ^ (c+1) = 2 ^ c + 2 ^ c := by ring
            omega
          rw [updHdr_other _ _ _ _ hne1, updHdr_other _ _ _ _ hne2]
          exact hx
      | true =>
        rw [htb1] at hstop
        simp only [if_true] at hstop ⊢
        have hge1 : 2 ^ (c+1) ≤ o - 2 ^ c := ge_of_testBit_true _ (c+1) htb1
        rcases hstop with hx | hx
        · exact Or.inl hx
        · right
          have hne1 : o - 2 ^ c - 2 ^ (c+1) ≠ o - 2 ^ c := by omega
          have hne2 : o - 2 ^ c - 2 ^ (c+1) ≠ o := by omega
          rw [updHdr_other _ _ _ _ hne1, updHdr_other _ _ _ _ hne2]
          exact hx
    · dsimp only
      rw [updHdr_same]
      dsimp only
      refine ⟨?_, ?_, ?_, ?_, ?_, ?_⟩
      · rw [updList_same, updList_other _ _ _ _ (by omega : c + 1 ≠ c)]
      · rw [updList_other _ _ _ _ (by omega : c ≠ c + 1), updList_same]
      · intro j hj1 hj2
        rw [updList_other _ _ _ _ hj2, updList_other _ _ _ _ hj1]
      · rw [updHdr_same]
      · rw [updHdr_same]
      · rfl

/-- A concrete 1KB segment: free class-8 chunk at 0, active class-8 chunk
at 256, active class-9 chunk at 512. -/
def c2seg : Segment :=
  { revision := 1, persistent := true, numChunks := 2,
    hdrs := fun x =>
      if x = 0 then ⟨true, none, 0, 8, MAGIC, 0⟩
      else if x = 256 then ⟨false, some 7, 10, 8, MAGIC, MAGIC⟩
      else if x = 512 then ⟨false, some 7, 20, 9, MAGIC, MAGIC⟩
      else ⟨false, none, 0, 0, 0, 0⟩,
    freeLists := fun j => if j = 8 then [0] else [],
    payload := fun _ => 0 }

/-- Witness for claim C2: freeing the active chunk at offset 256 of the
concrete segment merges it with its free buddy at offset 0 into one
class-9 free chunk. -/
theorem claim2_witness :
    ((c2seg.hdrs 256).mclass = 8 ∧ 8 < CHUNKSZ_MAX_BIT ∧
      (c2seg.hdrs (256 ^^^ 2 ^ 8)).freeChain = true ∧
      (c2seg.hdrs (256 ^^^ 2 ^ 8)).mclass = 8 ∧
      (256 ^^^ 2 ^ 8) + 2 ^ 8 ≤ 1024 ∧
      noMergeBuddy 1024 c2seg (min 256 (256 ^^^ 2 ^ 8)) (8 + 1)) ∧
    (freeChunkSeg 1024 c2seg 256).freeLists (8 + 1) =
      min 256 (256 ^^^ 2 ^ 8) :: c2seg.freeLists (8 + 1) ∧
    ((freeChunkSeg 1024 c2seg 256).hdrs (min 256 (256 ^^^ 2 ^ 8))).mclass = 8 + 1 := by
  have h1 : (c2seg.hdrs 256).mclass = 8 := by decide
  have h2 : 8 < CHUNKSZ_MAX_BIT := by decide
  have h3 : (c2seg.hdrs (256 ^^^ 2 ^ 8)).freeChain = true := by decide
  have h4 : (c2seg.hdrs (256 ^^^ 2 ^ 8)).mclass = 8 := by decide
  have h5 : (256 ^^^ 2 ^ 8) + 2 ^ 8 ≤ 1024 := by decide
  have h6 : noMergeBuddy 1024 c2seg (min 256 (256 ^^^ 2 ^ 8)) (8 + 1) := by decide
  obtain ⟨hl1, -, -, hm1, -, -⟩ :=
    claim2_buddy_merge 1024 c2seg 256 8 h1 h2 h3 h4 h5 h6
  exact ⟨⟨h1, h2, h3, h4, h5, h6⟩, hl1, hm1⟩

/-! ### Claim C3: the buddy-allocator round trip -/

/-- The quiescent-state invariant of a segment: every chunk on a class-c
free list has a linked free_chain, records class c, is 2^c-aligned, fits
in the segment, and its buddy is not also a free chunk of the same class
(free buddy pairs are always coalesced by __dmaBufferFree before the
state becomes visible). -/
def SegInv (S : Nat) (s : Segment) : Prop :=
  ∀ c, c ≤ CHUNKSZ_MAX_BIT → ∀ o ∈ s.freeLists c,
    (s.hdrs o).freeChain = true ∧ (s.hdrs o).mclass = c ∧
    2 ^ c ∣ o ∧ o + 2 ^ c ≤ S ∧
    ¬ ((s.hdrs (o ^^^ 2 ^ c)).freeChain = true ∧ (s.hdrs (o ^^^ 2 ^ c)).mclass = c)

instance (S : Nat) (s : Segment) : Decidable (SegInv S s) := by
  unfold SegInv CHUNKSZ_MAX_BIT
  infer_instance

theorem testBit_false_of_dvd (o k j : Nat) (hd : 2 ^ k ∣ o) (hj : j < k) :
    o.testBit j = false := by
  obtain ⟨t, rfl⟩ := hd
  rw [Nat.testBit_to_div_mod]
  have hsplit2 : (2:Nat) ^ k = 2 ^ j * 2 ^ (k - j) := by
    rw [← pow_add]
    congr 1
    omega
  have hdiv : 2 ^ k * t / 2 ^ j = 2 ^ (k - j) * t := by
    rw [hsplit2, mul_assoc]
    exact Nat.mul_div_cancel_left _ (pow_pos (by norm_num) j)
  rw [hdiv]
  have hmod : 2 ^ (k - j) * t % 2 = 0 := by
    have hkj : k - j = (k - j - 1) + 1 := by omega
    rw [hkj, pow_succ, mul_comm ((2:Nat) ^ (k - j - 1)) 2, mul_assoc]
    exact Nat.mul_mod_right 2 _
  simp [hmod]

theorem splitAux_shape : ∀ fuel m s s2, splitAux fuel s m = some s2 →
    ∃ n, m + n < CHUNKSZ_MAX_BIT ∧
      (∀ j, m ≤ j → j < m + n → s.freeLists j = []) ∧
      s.freeLists (m + n) ≠ [] ∧ n < fuel := by
  intro fuel
  induction fuel with
  | zero => intro m s s2 h; exact absurd h (by simp [splitAux])
  | succ f ih =>
    intro m s s2 h
    unfold splitAux at h
    split at h
    · exact absurd h (by simp)
    · rename_i hguard
      split at h
      · exact absurd h (by simp)
      · rename_i s3 heq
        split at heq
        · rename_i hemp
          obtain ⟨n, hn1, hn2, hn3, hn4⟩ := ih (m+1) s s3 heq
          refine ⟨n + 1, by omega, ?_, ?_, by omega⟩
          · intro j hj1 hj2
            by_cases hjm : j = m
            · subst hjm
              cases hl : s.freeLists j with
              | nil => rfl
              | cons a b => rw [hl] at hemp; exact absurd hemp (by simp)
            · exact hn2 j (by omega) (by omega)
          · have he : m + (n + 1) = m + 1 + n := by omega
            rw [he]
            exact hn3
        · rename_i hemp
          injection heq with heq2
          subst heq2
          refine ⟨0, by omega, by omega, ?_, by omega⟩
          rw [Nat.add_zero]
          intro hnil
          rw [hnil] at hemp
          exact absurd rfl hemp

theorem pow_lt_pow_of_lt (a b : Nat) (h : a < b) : (2:Nat) ^ a < 2 ^ b :=
  Nat.pow_lt_pow_right (by norm_num) h

/-- Exact characterization of a split cascade: if the free lists of the
classes m..m+n-1 are empty and the class-(m+n) list starts with chunk o,
then dmaBufferSplitChunk recursively halves o, leaving one free half at
each class in [m-1, m+n) (the bottom class receiving two siblings, one of
which the caller then pops). -/
theorem splitAux_cascade : ∀ n fuel m s o rest,
    1 ≤ m → m + n < CHUNKSZ_MAX_BIT →
    (∀ j, m ≤ j → j < m + n → s.freeLists j = []) →
    s.freeLists (m + n) = o :: rest →
    n < fuel →
    ∃ s2, splitAux fuel s m = some s2 ∧
      (∀ j, s2.freeLists j =
        if j = m + n then rest
        else if m - 1 ≤ j ∧ j < m + n then
          (if j = m - 1 then s.freeLists (m - 1) ++ [o, o + 2 ^ (m - 1)] else [o + 2 ^ j])
        else s.freeLists j) ∧
      s2.hdrs o = ⟨true, none, 0, m - 1, MAGIC, 0⟩ ∧
      (∀ j, m - 1 ≤ j → j < m + n → s2.hdrs (o + 2 ^ j) = ⟨true, none, 0, j, MAGIC, 0⟩) ∧
      (∀ x, x ≠ o → (∀ j, m - 1 ≤ j → j < m + n → x ≠ o + 2 ^ j) → s2.hdrs x = s.hdrs x) ∧
      s2.numChunks = s.numChunks ∧
      s2.payload = s.payload := by
  intro n
  induction n with
  | zero =>
    intro fuel m s o rest hm hk hempty hlist hfuel
    match fuel, hfuel with
    | f+1, _ =>
      simp only [Nat.add_zero] at hk hlist hempty ⊢
      have hpowm : (0:Nat) < 2 ^ (m - 1) := pow_pos (by norm_num) _
      have hne0 : (o : Nat) + 2 ^ (m - 1) ≠ o := by omega
      unfold splitAux
      rw [if_neg (by unfold CHUNKSZ_MAX_BIT at hk ⊢; omega)]
      rw [if_neg (by rw [hlist]; simp)]
      dsimp only
      rw [hlist]
      refine ⟨_, rfl, ?_, ?_, ?_, ?_, rfl, rfl⟩
      · intro j
        dsimp only
        by_cases hj1 : j = m
        · subst hj1
          rw [if_pos rfl]
          rw [updList_other _ _ _ _ (by omega : j ≠ j - 1), updList_same]
        · rw [if_neg hj1]
          by_cases hj2 : j = m - 1
          · subst hj2
            rw [if_pos ⟨le_refl _, by omega⟩, if_pos rfl, updList_same]
          · rw [if_neg (by omega : ¬ (m - 1 ≤ j ∧ j < m))]
            rw [updList_other _ _ _ _ hj2, updList_other _ _ _ _ hj1]
      · dsimp only
        rw [updHdr_other _ _ _ _ (Ne.symm hne0), updHdr_same]
      · intro j hj1 hj2
        have hj : j = m - 1 := by omega
        subst hj
        dsimp only
        rw [updHdr_same]
      · intro x hx1 hx2
        dsimp only
        rw [updHdr_other _ _ _ _ (hx2 (m-1) (le_refl _) (by omega)),
          updHdr_other _ _ _ _ hx1]
  | succ n ih =>
    intro fuel m s o rest hm hk hempty hlist hfuel
    match fuel, hfuel with
    | f+1, hf =>
      have hlist2 : s.freeLists (m + 1 + n) = o :: rest := by
        have he : m + 1 + n = m + (n + 1) := by omega
        rw [he]
        exact hlist
      obtain ⟨s3, heq3, hl3, hho3, hhj3, hhx3, hnum3, hpay3⟩ :=
        ih f (m+1) s o rest (by omega) (by omega)
          (fun j hj1 hj2 => hempty j (by omega) (by omega)) hlist2 (by omega)
      have hemptym : s.freeLists m = [] := hempty m (le_refl _) (by omega)
      unfold splitAux
      rw [if_neg (by unfold CHUNKSZ_MAX_BIT at hk ⊢; omega)]
      rw [if_pos (by rw [hemptym]; rfl)]
      rw [heq3]
      dsimp only
      have hl3m : s3.freeLists m = o :: [o + 2 ^ m] := by
        rw [hl3 m]
        rw [if_neg (by omega : ¬ m = m + 1 + n)]
        rw [if_pos ⟨by omega, by omega⟩, if_pos (by omega : m = m + 1 - 1)]
        have he : m + 1 - 1 = m := by omega
        rw [he, hemptym]
        rfl
      rw [hl3m]
      have hpowne : o + 2 ^ m ≠ o + 2 ^ (m - 1) := by
        have := pow_lt_pow_of_lt (m-1) m (by omega)
        omega
      have hne0 : (o : Nat) ≠ o + 2 ^ (m - 1) := by
        have hp2 : (0:Nat) < 2 ^ (m - 1) := pow_pos (by norm_num) _
        omega
      refine ⟨_, rfl, ?_, ?_, ?_, ?_, by dsimp only; rw [hnum3], by dsimp only; rw [hpay3]⟩
      · intro j
        dsimp only
        by_cases hj1 : j = m + (n + 1)
        · subst hj1
          rw [if_pos rfl]
          rw [updList_other _ _ _ _ (by omega : m + (n+1) ≠ m - 1),
            updList_other _ _ _ _ (by omega : m + (n+1) ≠ m)]
          rw [hl3 (m + (n+1))]
          rw [if_pos (by omega : m + (n+1) = m + 1 + n)]
        · rw [if_neg hj1]
          by_cases hj2 : j = m - 1
          · subst hj2
            rw [if_pos ⟨le_refl _, by omega⟩, if_pos rfl, updList_same]
            congr 1
            rw [hl3 (m-1)]
            rw [if_neg (by omega : ¬ m - 1 = m + 1 + n),
              if_neg (by omega : ¬ (m + 1 - 1 ≤ m - 1 ∧ m - 1 < m + 1 + n))]
          · by_cases hj3 : m - 1 ≤ j ∧ j < m + (n + 1)
            · rw [if_pos hj3, if_neg hj2]
              rw [updList_other _ _ _ _ hj2]
              by_cases hj4 : j = m
              · subst hj4
                rw [updList_same]
              · rw [updList_other _ _ _ _ hj4]
                rw [hl3 j]
                rw [if_neg (by omega : ¬ j = m + 1 + n),
                  if_pos (by omega : m + 1 - 1 ≤ j ∧ j < m + 1 + n),
                  if_neg (by omega : ¬ j = m + 1 - 1)]
            · rw [if_neg hj3]
              rw [updList_other _ _ _ _ hj2, updList_other _ _ _ _ (by omega : j ≠ m)]
              rw [hl3 j]
              rw [if_neg (by omega : ¬ j = m + 1 + n),
                if_neg (by omega : ¬ (m + 1 - 1 ≤ j ∧ j < m + 1 + n))]
      · dsimp only
        rw [updHdr_other _ _ _ _ hne0, updHdr_same]
      · intro j hj1 hj2
        dsimp only
        by_cases hj3 : j = m - 1
        · subst hj3
          rw [updHdr_same]
        · have hjge : m ≤ j := by omega
          have hne1 : o + 2 ^ j ≠ o + 2 ^ (m - 1) := by
            have := pow_lt_pow_of_lt (m-1) j (by omega)
            omega
          have hne2 : o + 2 ^ j ≠ o := by
            have hp2 : (0:Nat) < 2 ^ j := pow_pos (by norm_num) _
            omega
          rw [updHdr_other _ _ _ _ hne1, updHdr_other _ _ _ _ hne2]
          exact hhj3 j (by omega) (by omega)
      · intro x hx1 hx2
        dsimp only
        rw [updHdr_other _ _ _ _ (hx2 (m-1) (le_refl _) (by omega)),
          updHdr_other _ _ _ _ hx1]
        exact hhx3 x hx1 (fun j hj1 hj2 => hx2 j (by omega) (by omega))

theorem xor_pow_ne (o c : Nat) : o ^^^ 2 ^ c ≠ o := by
  have hp : (0:Nat) < 2 ^ c := pow_pos (by norm_num) _
  cases htb : o.testBit c with
  | false =>
    rw [xor_two_pow_of_testBit_false o c htb]
    omega
  | true =>
    rw [xor_two_pow_of_testBit_true o c htb]
    have hge := ge_of_testBit_true o c htb
    omega

/-- The merge loop of __dmaBufferFree climbs from class j to class j+n when
each intermediate class holds exactly the matching free buddy of the chunk,
consuming the singleton free lists on the way, and stops at class j+n when
the buddy there is not mergeable. -/
theorem mergeClimb (S : Nat) : ∀ n fuel (t : Segment) (o j : Nat),
    j + n ≤ CHUNKSZ_MAX_BIT →
    (t.hdrs o).mclass = j →
    (∀ i, j ≤ i → i < j + n → t.freeLists i = [o + 2 ^ i]) →
    (∀ i, j ≤ i → i < j + n → t.hdrs (o + 2 ^ i) = ⟨true, none, 0, i, MAGIC, 0⟩) →
    2 ^ (j + n) ∣ o →
    o + 2 ^ (j + n) ≤ S →
    ¬ ((t.hdrs (o ^^^ 2 ^ (j + n))).freeChain = true ∧
        (t.hdrs (o ^^^ 2 ^ (j + n))).mclass = j + n) →
    n < fuel →
    ∃ t2, mergeAux S fuel t o = (t2, o) ∧
      (∀ i, t2.freeLists i = if j ≤ i ∧ i < j + n then [] else t.freeLists i) ∧
      (t2.hdrs o).mclass = j + n ∧
      (∀ x, x ≠ o → t2.hdrs x = t.hdrs x) ∧
      t2.numChunks = t.numChunks := by
  intro n
  induction n with
  | zero =>
    intro fuel t o j hk34 htj hmidl hmidh hdvd hbnd hstop hfuel
    match fuel, hfuel with
    | f+1, _ =>
      rw [Nat.add_zero] at hk34 hdvd hbnd hstop
      refine ⟨t, ?_, ?_, by rw [htj]; omega, fun x hx => rfl, rfl⟩
      · apply mergeAux_exit
        rw [htj]
        unfold noMergeBuddy
        cases htb : o.testBit j with
        | false =>
          rw [xor_two_pow_of_testBit_false o j htb] at hstop
          simp only [Bool.false_eq_true, if_false]
          exact Or.inr (by
            intro hcon
            exact hstop ⟨hcon.2, hcon.1⟩)
        | true =>
          rw [xor_two_pow_of_testBit_true o j htb] at hstop
          simp only [if_true]
          exact Or.inr (by
            intro hcon
            exact hstop ⟨hcon.2, hcon.1⟩)
      · intro i
        rw [if_neg (by omega : ¬ (j ≤ i ∧ i < j + 0))]
  | succ n ih =>
    intro fuel t o j hk34 htj hmidl hmidh hdvd hbnd hstop hfuel
    match fuel, hfuel with
    | f+1, hf =>
      have hpj : (0:Nat) < 2 ^ j := pow_pos (by norm_num) _
      have hpK : (0:Nat) < 2 ^ (j + (n+1)) := pow_pos (by norm_num) _
      have hpjK : (2:Nat) ^ j < 2 ^ (j + (n+1)) := pow_lt_pow_of_lt _ _ (by omega)
      have htb : o.testBit j = false := testBit_false_of_dvd o (j + (n+1)) j hdvd (by omega)
      have hhj := hmidh j (le_refl _) (by omega)
      have hstep := mergeAux_step_up S f t o
        (by rw [htj]; unfold CHUNKSZ_MAX_BIT at hk34 ⊢; omega)
        (by rw [htj]; exact htb)
        (by rw [htj]; omega)
        (by rw [htj, hhj]; exact ⟨rfl, rfl⟩)
      rw [htj] at hstep
      rw [hstep]
      have hlj : (t.freeLists j).erase (o + 2 ^ j) = [] := by
        rw [hmidl j (le_refl _) (by omega)]
        exact List.erase_cons_head _ _
      obtain ⟨t2, hrun, hl2, hc2, hx2, hn2⟩ := ih f
        { t with
          freeLists := updList t.freeLists j ((t.freeLists j).erase (o + 2 ^ j)),
          hdrs := updHdr t.hdrs o { t.hdrs o with mclass := j + 1 } }
        o (j + 1)
        (by omega)
        (by dsimp only; rw [updHdr_same])
        (by
          intro i hi1 hi2
          dsimp only
          rw [updList_other _ _ _ _ (by omega : i ≠ j)]
          exact hmidl i (by omega) (by omega))
        (by
          intro i hi1 hi2
          dsimp only
          have hpi : (0:Nat) < 2 ^ i := pow_pos (by norm_num) _
          rw [updHdr_other _ _ _ _ (by omega : o + 2 ^ i ≠ o)]
          exact hmidh i (by omega) (by omega))
        (by
          have he : j + 1 + n = j + (n + 1) := by omega
          rw [he]
          exact hdvd)
        (by
          have he : j + 1 + n = j + (n + 1) := by omega
          rw [he]
          exact hbnd)
        (by
          have he : j + 1 + n = j + (n + 1) := by omega
          rw [he]
          dsimp only
          rw [updHdr_other _ _ _ _ (xor_pow_ne o _)]
          exact hstop)
        (by omega)
      refine ⟨t2, hrun, ?_, ?_, ?_, ?_⟩
      · intro i
        rw [hl2 i]
        by_cases hi1 : j + 1 ≤ i ∧ i < j + 1 + n
        · rw [if_pos hi1, if_pos (by omega)]
        · rw [if_neg hi1]
          dsimp only
          by_cases hi2 : i = j
          · subst hi2
            rw [updList_same, if_pos (by omega), hlj]
          · rw [updList_other _ _ _ _ hi2, if_neg (by omega)]
      · rw [hc2]
        omega
      · intro x hx
        rw [hx2 x hx]
        dsimp only
        rw [updHdr_other _ _ _ _ hx]
      · rw [hn2]

/-- Combined characterization of __dmaBufferFree on a chunk of class j whose
buddies climb cleanly to class j+n: the scrub and shgcon reset do not disturb
the merge-relevant header fields, the merge loop absorbs the singleton free
lists of classes [j, j+n), and the final push puts the merged chunk at the
head of the class-(j+n) list. -/
theorem freeChunkSeg_climb (S : Nat) (s : Segment) (o j n : Nat)
    (hk34 : j + n ≤ CHUNKSZ_MAX_BIT)
    (htj : (s.hdrs o).mclass = j)
    (hmidl : ∀ i, j ≤ i → i < j + n → s.freeLists i = [o + 2 ^ i])
    (hmidh : ∀ i, j ≤ i → i < j + n →
      s.hdrs (o + 2 ^ i) = ⟨true, none, 0, i, MAGIC, 0⟩)
    (hdvd : 2 ^ (j + n) ∣ o)
    (hbnd : o + 2 ^ (j + n) ≤ S)
    (hstop : ¬ ((s.hdrs (o ^^^ 2 ^ (j + n))).freeChain = true ∧
        (s.hdrs (o ^^^ 2 ^ (j + n))).mclass = j + n)) :
    (∀ i, (freeChunkSeg S s o).freeLists i =
      if i = j + n then o :: s.freeLists (j + n)
      else if j ≤ i ∧ i < j + n then [] else s.freeLists i) ∧
    (freeChunkSeg S s o).numChunks = s.numChunks - 1 := by
  obtain ⟨t2, hrun, hl2, hc2, hx2, hn2⟩ :=
    mergeClimb S n 36
      { s with payload := scrub s.payload (o + HDRSZ) ((s.hdrs o).required) 0xf5, hdrs := updHdr s.hdrs o { s.hdrs o with shgcon := none } }
      o j hk34
      (by dsimp only; rw [updHdr_same]; exact htj)
      (by intro i h1 h2; dsimp only; exact hmidl i h1 h2)
      (by
        intro i h1 h2
        dsimp only
        have hp : (0:Nat) < 2 ^ i := pow_pos (by norm_num) _
        rw [updHdr_other _ _ _ _ (by omega : o + 2 ^ i ≠ o)]
        exact hmidh i h1 h2)
      hdvd hbnd
      (by
        dsimp only
        rw [updHdr_other _ _ _ _ (xor_pow_ne o (j + n))]
        exact hstop)
      (by have h : j + n ≤ 34 := hk34; omega)
  dsimp only at hrun hl2 hc2 hx2 hn2
  unfold freeChunkSeg
  dsimp only
  rw [hrun]
  dsimp only
  constructor
  · intro i
    rw [hc2]
    by_cases hik : i = j + n
    · subst hik
      rw [updList_same, if_pos rfl, hl2]
      rw [if_neg (by omega : ¬ (j ≤ j + n ∧ j + n < j + n))]
    · rw [updList_other _ _ _ _ hik, if_neg hik, hl2 i]
  · rw [hn2]

/-- Claim C3: on any segment state whose free lists satisfy the buddy
invariant maintained by every reachable state (each listed chunk is marked
free with the matching class, is class-aligned, lies within the segment, and
has no mergeable buddy), a single dmaBufferAllocChunk — including any split
cascade — followed immediately by the free path of __dmaBufferFree on the
returned chunk — including the buddy-merge loop — restores every per-class
free list to exactly its previous contents and order, and restores the
active-chunk count. -/
theorem claim3_roundtrip (S : Nat) (s : Segment) (c r o : Nat) (s1 : Segment)
    (hinv : SegInv S s) (h1c : 1 ≤ c) (hc34 : c ≤ CHUNKSZ_MAX_BIT)
    (halloc : dmaBufferAllocChunk s c r = some (o, s1)) :
    (∀ j, (freeChunkSeg S s1 o).freeLists j = s.freeLists j) ∧
    (freeChunkSeg S s1 o).numChunks = s.numChunks := by
  unfold dmaBufferAllocChunk at halloc
  cases hl : s.freeLists c with
  | cons o0 rest0 =>
    rw [hl, if_neg (by simp : ¬ ((o0 :: rest0).isEmpty = true))] at halloc
    dsimp only at halloc
    rw [hl] at halloc
    dsimp only at halloc
    injection halloc with hpair
    injection hpair with ho hs
    subst hs
    subst ho
    have hmem : o0 ∈ s.freeLists c := by rw [hl]; exact List.mem_cons_self _ _
    obtain ⟨hfc, hmc, hdvd, hbnd, hstop⟩ := hinv c hc34 o0 hmem
    have hcl := freeChunkSeg_climb S
      { s with hdrs := updHdr s.hdrs o0 ⟨false, none, r, c, MAGIC, MAGIC⟩, freeLists := updList s.freeLists c rest0, numChunks := s.numChunks + 1 }
      o0 c 0
      (by rw [Nat.add_zero]; exact hc34)
      (by dsimp only; rw [updHdr_same])
      (by intro i h1 h2; exact absurd h2 (by omega))
      (by intro i h1 h2; exact absurd h2 (by omega))
      (by rw [Nat.add_zero]; exact hdvd)
      (by rw [Nat.add_zero]; exact hbnd)
      (by
        rw [Nat.add_zero]
        dsimp only
        rw [updHdr_other _ _ _ _ (xor_pow_ne o0 c)]
        exact hstop)
    refine ⟨?_, ?_⟩
    · intro jj
      rw [hcl.1 jj]
      by_cases hik : jj = c + 0
      · rw [if_pos hik]
        subst hik
        dsimp only
        simp only [Nat.add_zero]
        rw [updList_same]
        exact hl.symm
      · rw [if_neg hik, if_neg (by omega : ¬ (c ≤ jj ∧ jj < c + 0))]
        dsimp only
        rw [updList_other _ _ _ _ (by omega : jj ≠ c)]
    · rw [hcl.2]
      dsimp only
      omega
  | nil =>
    rw [hl, if_pos (by rfl : (([] : List Nat).isEmpty) = true)] at halloc
    cases hsp : dmaBufferSplitChunk s (c + 1) with
    | none =>
      rw [hsp] at halloc
      dsimp only at halloc
      exact Option.noConfusion halloc
    | some s2 =>
      rw [hsp] at halloc
      dsimp only at halloc
      have hsp2 : splitAux 35 s (c + 1) = some s2 := hsp
      obtain ⟨n, hk, hempty, hne, hn35⟩ := splitAux_shape 35 (c + 1) s s2 hsp2
      cases hlk : s.freeLists (c + 1 + n) with
      | nil => rw [hlk] at hne; exact absurd rfl hne
      | cons o0 rest0 =>
        obtain ⟨s2x, hspx, hchar, hho, hhmid, hhfr, hnum, hpay⟩ :=
          splitAux_cascade n 35 (c + 1) s o0 rest0 (by omega) hk hempty hlk (by omega)
        rw [hsp2] at hspx
        injection hspx with he
        subst he
        simp only [Nat.add_sub_cancel] at hchar hho hhmid hhfr
        have hs2c : s2.freeLists c = [o0, o0 + 2 ^ c] := by
          have h := hchar c
          rw [if_neg (by omega : ¬ c = c + 1 + n),
            if_pos (by omega : c ≤ c ∧ c < c + 1 + n), if_pos rfl, hl] at h
          simpa using h
        rw [hs2c] at halloc
        dsimp only at halloc
        injection halloc with hpair
        injection hpair with ho hs
        subst hs
        subst ho
        have hmem : o0 ∈ s.freeLists (c + 1 + n) := by
          rw [hlk]; exact List.mem_cons_self _ _
        have hk34' : c + 1 + n ≤ CHUNKSZ_MAX_BIT := le_of_lt hk
        obtain ⟨hfcK, hmcK, hdvdK, hbndK, hstopK⟩ := hinv (c + 1 + n) hk34' o0 hmem
        have he1 : c + (n + 1) = c + 1 + n := by omega
        have hcl := freeChunkSeg_climb S
          { s2 with hdrs := updHdr s2.hdrs o0 ⟨false, none, r, c, MAGIC, MAGIC⟩, freeLists := updList s2.freeLists c [o0 + 2 ^ c], numChunks := s2.numChunks + 1 }
          o0 c (n + 1)
          (by rw [he1]; exact hk34')
          (by dsimp only; rw [updHdr_same])
          (by
            intro i h1 h2
            dsimp only
            by_cases hic : i = c
            · subst hic; rw [updList_same]
            · rw [updList_other _ _ _ _ hic, hchar i,
                if_neg (by omega : ¬ i = c + 1 + n),
                if_pos (by omega : c ≤ i ∧ i < c + 1 + n), if_neg hic])
          (by
            intro i h1 h2
            dsimp only
            have hp : (0:Nat) < 2 ^ i := pow_pos (by norm_num) _
            rw [updHdr_other _ _ _ _ (by omega : o0 + 2 ^ i ≠ o0)]
            exact hhmid i h1 (by omega))
          (by rw [he1]; exact hdvdK)
          (by rw [he1]; exact hbndK)
          (by
            rw [he1]
            dsimp only
            rw [updHdr_other _ _ _ _ (xor_pow_ne o0 (c + 1 + n))]
            have hfr2 : s2.hdrs (o0 ^^^ 2 ^ (c + 1 + n)) =
                s.hdrs (o0 ^^^ 2 ^ (c + 1 + n)) := by
              apply hhfr
              · exact xor_pow_ne o0 (c + 1 + n)
              · intro j hj1 hj2
                have hpj : (0:Nat) < 2 ^ j := pow_pos (by norm_num) _
                have hplt : (2:Nat) ^ j < 2 ^ (c + 1 + n) :=
                  pow_lt_pow_of_lt _ _ (by omega)
                cases htb : o0.testBit (c + 1 + n) with
                | false => rw [xor_two_pow_of_testBit_false _ _ htb]; omega
                | true =>
                  rw [xor_two_pow_of_testBit_true _ _ htb]
                  have hgeb := ge_of_testBit_true o0 _ htb
                  omega
            rw [hfr2]
            exact hstopK)
        refine ⟨?_, ?_⟩
        · intro jj
          rw [hcl.1 jj]
          by_cases hik : jj = c + (n + 1)
          · rw [if_pos hik]
            subst hik
            dsimp only
            rw [he1, updList_other _ _ _ _ (by omega : c + 1 + n ≠ c),
              hchar (c + 1 + n), if_pos rfl]
            exact hlk.symm
          · rw [if_neg hik]
            by_cases hmid : c ≤ jj ∧ jj < c + (n + 1)
            · rw [if_pos hmid]
              by_cases hjc : jj = c
              · subst hjc; exact hl.symm
              · exact (hempty jj (by omega) (by omega)).symm
            · rw [if_neg hmid]
              dsimp only
              rw [updList_other _ _ _ _ (by omega : jj ≠ c), hchar jj,
                if_neg (by omega : ¬ jj = c + 1 + n),
                if_neg (by omega : ¬ (c ≤ jj ∧ jj < c + 1 + n))]
        · rw [hcl.2]
          dsimp only
          rw [hnum]
          omega

/-- A freshly created 1024-byte segment (one free class-10 chunk). -/
def c3s : Segment := dmaBufferCreateSegment 1024 blankSegment

/-- One class-8 allocation from it (forces a two-level split cascade). -/
def c3res : Option (Nat × Segment) := dmaBufferAllocChunk c3s 8 10

def c3o : Nat := match c3res with | some (o, _) => o | none => 0

def c3s1 : Segment := match c3res with | some (_, t) => t | none => c3s

theorem claim3_witness :
    (freeChunkSeg 1024 c3s1 c3o).freeLists 10 = c3s.freeLists 10 ∧
    (freeChunkSeg 1024 c3s1 c3o).freeLists 9 = c3s.freeLists 9 ∧
    (freeChunkSeg 1024 c3s1 c3o).freeLists 8 = c3s.freeLists 8 ∧
    (freeChunkSeg 1024 c3s1 c3o).numChunks = c3s.numChunks := by
  have h := claim3_roundtrip 1024 c3s 8 10 c3o c3s1 (by decide) (by decide) (by decide) rfl
  exact ⟨h.1 10, h.1 9, h.1 8, h.2⟩

/-! ### Claim C5: dmaBufferValidatePtr -/

/-- Decomposition of a successful pointer validation: the pointer is at
least HDRSZ, its chunk offset is inside the reserved range, and the
returned pair is the segment id and in-segment offset. -/
theorem pointer_validation_parts (d : Directory) (p i o : Nat)
    (hv : pointer_validation d p = .ok (i, o)) :
    HDRSZ ≤ p ∧ p - HDRSZ < d.numSegs * d.segSize ∧
    (p - HDRSZ) / d.segSize = i ∧ (p - HDRSZ) % d.segSize = o := by
  unfold pointer_validation at hv
  split at hv
  · exact absurd hv (by simp)
  · rename_i h1
    dsimp only at hv
    split at hv
    · exact absurd hv (by simp)
    · rename_i h2
      split at hv
      · exact absurd hv (by simp)
      · split at hv
        · exact absurd hv (by simp)
        · injection hv with hpair
          injection hpair with he1 he2
          exact ⟨by omega, by omega, he1, he2⟩

/-- Pointer validation fails (returns false, not an error to the caller)
whenever the addressed header has a linked free_chain. -/
theorem validate_false_of_freeChain (d : Directory) (p : Nat)
    (h1 : HDRSZ ≤ p) (h2 : p - HDRSZ < d.numSegs * d.segSize)
    (hfc : ((d.segs ((p - HDRSZ) / d.segSize)).hdrs ((p - HDRSZ) % d.segSize)).freeChain = true) :
    dmaBufferValidatePtr d p = false := by
  unfold dmaBufferValidatePtr pointer_validation
  rw [if_neg (by omega : ¬ p < HDRSZ)]
  dsimp only
  rw [if_neg (by omega : ¬ d.numSegs * d.segSize ≤ p - HDRSZ)]
  split
  · rfl
  · rfl

/-- When the merge loop leaves the freed chunk itself as the survivor
(no absorption into a lower-address buddy), the pushed chunk's own header
has its free_chain linked. -/
theorem freeChunkSeg_survivor (S : Nat) (s : Segment) (o : Nat)
    (hsurv : (mergeAux S 36 { s with payload := scrub s.payload (o + HDRSZ) ((s.hdrs o).required) 0xf5, hdrs := updHdr s.hdrs o { s.hdrs o with shgcon := none } } o).2 = o) :
    ((freeChunkSeg S s o).hdrs o).freeChain = true := by
  unfold freeChunkSeg
  dsimp only
  rw [hsurv, updHdr_same]

/-- Claim C5 (amended): dmaBufferValidatePtr returns true for a pointer
that passes pointer validation (in particular any live allocated chunk);
after a successful free in which the merge loop's survivor is the freed
chunk itself, the same pointer validates false; any pointer outside the
reserved DMA range validates false; and any in-range pointer whose head
guard marker or tail guard marker does not match the magic code validates
false.  (The amendment: a freed pointer whose chunk was absorbed into a
lower-address buddy keeps a stale but well-formed header and still
validates true — see the counterexample.) -/
theorem claim5_validate (d : Directory) (p i o : Nat) (d2 : Directory)
    (hv : pointer_validation d p = .ok (i, o))
    (hfree : dmaBufferFreeInternal d p = .ok d2)
    (hsurv : (mergeAux d.segSize 36 { d.segs i with payload := scrub (d.segs i).payload (o + HDRSZ) (((d.segs i).hdrs o).required) 0xf5, hdrs := updHdr (d.segs i).hdrs o { (d.segs i).hdrs o with shgcon := none } } o).2 = o) :
    dmaBufferValidatePtr d p = true ∧
    dmaBufferValidatePtr d2 p = false ∧
    (∀ q, q < HDRSZ ∨ d.numSegs * d.segSize + HDRSZ ≤ q →
      dmaBufferValidatePtr d q = false) ∧
    (∀ q, HDRSZ ≤ q → q - HDRSZ < d.numSegs * d.segSize →
      ((d.segs ((q - HDRSZ) / d.segSize)).hdrs ((q - HDRSZ) % d.segSize)).magicHead ≠ MAGIC →
      dmaBufferValidatePtr d q = false) ∧
    (∀ q, HDRSZ ≤ q → q - HDRSZ < d.numSegs * d.segSize →
      ((d.segs ((q - HDRSZ) / d.segSize)).hdrs ((q - HDRSZ) % d.segSize)).magicTail ≠ MAGIC →
      dmaBufferValidatePtr d q = false) := by
  obtain ⟨hp1, hp2, hpi, hpo⟩ := pointer_validation_parts d p i o hv
  refine ⟨?_, ?_, ?_, ?_, ?_⟩
  · unfold dmaBufferValidatePtr
    rw [hv]
    rfl
  · unfold dmaBufferFreeInternal at hfree
    rw [hv] at hfree
    dsimp only at hfree
    have hsv := freeChunkSeg_survivor d.segSize (d.segs i) o hsurv
    split at hfree
    · injection hfree with hd
      apply validate_false_of_freeChain
      · exact hp1
      · rw [← hd]
        dsimp only
        exact hp2
      · rw [← hd]
        dsimp only
        rw [hpi, hpo, updSeg_same]
        exact hsv
    · injection hfree with hd
      apply validate_false_of_freeChain
      · exact hp1
      · rw [← hd]
        dsimp only
        exact hp2
      · rw [← hd]
        dsimp only
        rw [hpi, hpo, updSeg_same]
        unfold dmaBufferDetachSegment
        dsimp only
        exact hsv
  · intro q hq
    unfold dmaBufferValidatePtr pointer_validation
    by_cases hlo : q < HDRSZ
    · rw [if_pos hlo]
      rfl
    · rcases hq with h | h
      · exact absurd h hlo
      · rw [if_neg hlo]
        dsimp only
        rw [if_pos (by omega : d.numSegs * d.segSize ≤ q - HDRSZ)]
        rfl
  · intro q hq1 hq2 hmg
    unfold dmaBufferValidatePtr pointer_validation
    rw [if_neg (by omega : ¬ q < HDRSZ)]
    dsimp only
    rw [if_neg (by omega : ¬ d.numSegs * d.segSize ≤ q - HDRSZ)]
    rw [if_pos (Or.inr (Or.inl hmg))]
    rfl
  · intro q hq1 hq2 hmt
    unfold dmaBufferValidatePtr pointer_validation
    rw [if_neg (by omega : ¬ q < HDRSZ)]
    dsimp only
    rw [if_neg (by omega : ¬ d.numSegs * d.segSize ≤ q - HDRSZ)]
    rw [if_pos (Or.inr (Or.inr hmt))]
    rfl

/-- Free of the first example allocation (ptr 56, chunk at offset 0). -/
def exF1 : Except Err Directory := dmaBufferFreeInternal exD2 exP1

def exDf1 : Directory := match exF1 with | .ok d => d | .error _ => exD2

/-- Free of the second example allocation (ptr 312, chunk at offset 256);
its buddy at offset 0 is free by then, so the merge loop absorbs the chunk
downward and leaves its header bytes stale but well-formed. -/
def exF2 : Except Err Directory := dmaBufferFreeInternal exDf1 exP2

def exDf2 : Directory := match exF2 with | .ok d => d | .error _ => exDf1

/-- Claim C5 counterexample: pointer 312 was returned by an allocation and
then successfully freed (the free merged its chunk into the free buddy at
offset 0), yet dmaBufferValidatePtr still returns true for it: the
downward merge leaves the freed chunk's header with matching magics and an
unlinked free_chain, so validation reports it as a live chunk. -/
theorem claim5_counterexample :
    exP2 = 312 ∧
    exF1 = .ok exDf1 ∧
    exF2 = .ok exDf2 ∧
    dmaBufferValidatePtr exDf2 312 = true :=
  ⟨rfl, rfl, rfl, rfl⟩

theorem claim5_witness :
    dmaBufferValidatePtr exD2 56 = true ∧
    dmaBufferValidatePtr exDf1 56 = false ∧
    dmaBufferValidatePtr exD2 5000 = false ∧
    dmaBufferValidatePtr exD2 64 = false ∧
    dmaBufferValidatePtr exD2 568 = false := by
  have h := claim5_validate exD2 56 0 0 exDf1 rfl rfl rfl
  exact ⟨h.1, h.2.1, h.2.2.1 5000 (Or.inr (by decide)),
    h.2.2.2.1 64 (by decide) (by decide) (by decide),
    h.2.2.2.2 568 (by decide) (by decide) (by decide)⟩

/-! ### Claim C8: realloc to a larger size class -/

/-- Claim C8: a resize whose new required size maps to a class larger than
the chunk's current class is never satisfied in place: __dmaBufferRealloc
allocates a new chunk of the larger class billed to the chunk's own owning
context (ch->shgcon), copies the old chunk's previous logical length in
bytes into the new data area, frees the old chunk, and returns the new
pointer; the copied bytes read back as the old chunk's contents. -/
theorem claim8_realloc_grow (d : Directory) (ptr required : Nat) (cf : Bool)
    (i o ptrN : Nat) (d1 : Directory) (iN oN : Nat) (d2 d3 : Directory)
    (hv : pointer_validation d ptr = .ok (i, o))
    (hgrow : ((d.segs i).hdrs o).mclass < mclassOf required)
    (halloc : dmaBufferAllocInternal d (((d.segs i).hdrs o).shgcon) required cf =
      .ok (ptrN, d1))
    (hiN : iN = (ptrN - HDRSZ) / d.segSize)
    (hoN : oN = (ptrN - HDRSZ) % d.segSize)
    (hd2 : d2 = { d1 with segs := updSeg d1.segs iN { d1.segs iN with payload := copyBytes (d1.segs iN).payload (oN + HDRSZ) (d1.segs i).payload (o + HDRSZ) (((d.segs i).hdrs o).required) } })
    (hfree : dmaBufferFreeInternal d2 ptr = .ok d3) :
    dmaBufferRealloc d ptr required cf = .ok (ptrN, d3) ∧
    (∀ b, b < ((d.segs i).hdrs o).required →
      (d2.segs iN).payload (oN + HDRSZ + b) = (d1.segs i).payload (o + HDRSZ + b)) := by
  subst hiN
  subst hoN
  subst hd2
  constructor
  · unfold dmaBufferRealloc
    rw [hv]
    dsimp only
    rw [if_neg (by omega : ¬ mclassOf required = ((d.segs i).hdrs o).mclass)]
    rw [if_neg (by omega : ¬ mclassOf required < ((d.segs i).hdrs o).mclass)]
    rw [halloc]
    dsimp only
    rw [hfree]
  · intro b hb
    dsimp only
    rw [updSeg_same]
    dsimp only
    unfold copyBytes
    rw [if_pos ⟨by omega, by omega⟩]
    congr 1
    omega

/-- The grow-realloc of the first example chunk (ptr 56, required 10,
class 8) to 300 bytes (class 9). -/
def c8res : Except (Err × Directory) (Nat × Directory) :=
  dmaBufferAllocInternal exD2 (((exD2.segs 0).hdrs 0).shgcon) 300 false

def c8ptrN : Nat := match c8res with | .ok (p, _) => p | .error _ => 0

def c8d1 : Directory := match c8res with | .ok (_, d) => d | .error _ => exD2

def c8iN : Nat := (c8ptrN - HDRSZ) / exD2.segSize

def c8oN : Nat := (c8ptrN - HDRSZ) % exD2.segSize

def c8d2 : Directory := { c8d1 with segs := updSeg c8d1.segs c8iN { c8d1.segs c8iN with payload := copyBytes (c8d1.segs c8iN).payload (c8oN + HDRSZ) (c8d1.segs 0).payload (0 + HDRSZ) (((exD2.segs 0).hdrs 0).required) } }

def c8fres : Except Err Directory := dmaBufferFreeInternal c8d2 56

def c8d3 : Directory := match c8fres with | .ok d => d | .error _ => c8d2

theorem claim8_witness :
    dmaBufferRealloc exD2 56 300 false = .ok (c8ptrN, c8d3) ∧
    c8ptrN = 568 ∧
    (c8d2.segs c8iN).payload (c8oN + HDRSZ + 0) = (c8d1.segs 0).payload (0 + HDRSZ + 0) := by
  have h := claim8_realloc_grow exD2 56 300 false 0 0 c8ptrN c8d1 c8iN c8oN c8d2 c8d3
    rfl (by decide) rfl rfl rfl rfl rfl
  exact ⟨h.1, rfl, h.2 0 (by decide)⟩

end DmaBuf
